import Mathlib

/-!
Verification of the bounded-collection shrink engine and its composite
value trees (proptest core as adapted for the Kani symbolic harness).

The definitions below are a shallow embedding of:
  * `src/src/collection.rs` — `SizeRange` and its `From` conversions,
    `VecStrategy::new_tree`, `VecValueTree::{current, simplify, complicate}`;
  * `src/library/proptest/src/tuple.rs` — `TupleValueTree`;
  * `src/library/proptest/src/strategy/flatten.rs` — `FlattenValueTree`.

Machine integers (`usize`) are modelled as `Nat`; the two places where
`usize` arithmetic can fail (`end - 1` underflow in `From<Range<usize>>`,
`end + 1` overflow in `From<SizeRange> for Range<usize>`) are documented at
the definition and guarded by explicit hypotheses in the theorems that rely
on those conversions.  Rust functions that can diverge by an internal
`panic` are embedded as `Option`-valued functions, `none` meaning the
panic was hit.
-/

namespace Proptest

/-- Maximum value of the host's `usize` type (64-bit). -/
def USIZE_MAX : Nat := 2 ^ 64 - 1

/-- The `SizeRange` struct: an inclusive interval `[low, high]` used to
bound a collection's length (`collection.rs`, `pub struct SizeRange`).
Field `low` models `*self.0.start()`, field `high` models `*self.0.end()`. -/
structure SizeRange where
  low : Nat
  high : Nat
deriving DecidableEq, Repr

/-- `impl From<RangeInclusive<usize>> for SizeRange`: `low..=high` passes
through unchanged. -/
def SizeRange.fromRangeInclusive (lo hi : Nat) : SizeRange := ⟨lo, hi⟩

/-- `impl From<Range<usize>> for SizeRange`: `size_range(r.start..=r.end - 1)`.
In Rust, `r.end - 1` underflows when `r.end = 0` (a debug-mode panic); the
`Nat` truncated subtraction used here is faithful for `r.end ≥ 1`, and every
theorem about this conversion carries that hypothesis. -/
def SizeRange.fromRange (start stop : Nat) : SizeRange :=
  SizeRange.fromRangeInclusive start (stop - 1)

/-- `impl From<usize> for SizeRange`: `exact` gives `[exact, exact]`
(via `size_range(exact..=exact)`). -/
def SizeRange.fromUsize (exact : Nat) : SizeRange :=
  SizeRange.fromRangeInclusive exact exact

/-- `impl From<RangeTo<usize>> for SizeRange`: `..high` gives
`size_range(0..high.end)`. -/
def SizeRange.fromRangeTo (stop : Nat) : SizeRange :=
  SizeRange.fromRange 0 stop

/-- `impl From<RangeToInclusive<usize>> for SizeRange`: `..=high` gives
`size_range(0..=high.end)`. -/
def SizeRange.fromRangeToInclusive (hi : Nat) : SizeRange :=
  SizeRange.fromRangeInclusive 0 hi

/-- `impl Default for SizeRange`: `size_range(0..100)`. -/
def SizeRange.default : SizeRange := SizeRange.fromRange 0 100

/-- `impl From<SizeRange> for Range<usize>`: `start..end + 1`, modelled as the
pair `(start, end + 1)`.  The Rust code panics when `end == usize::MAX`
(documented on the impl); theorems about this conversion carry the
hypothesis `high < USIZE_MAX`. -/
def SizeRange.toRange (sr : SizeRange) : Nat × Nat :=
  (sr.low, sr.high + 1)

/-- The `Shrink` cursor of `VecValueTree` (`collection.rs`, `enum Shrink`). -/
inductive Shrink where
  | DeleteElement (ix : Nat)
  | ShrinkElement (ix : Nat)
deriving DecidableEq, Repr

/-- The `ValueTree` trait interface: a state type `σ` with the three
methods `current`, `simplify`, `complicate`.  The mutating Rust methods
`fn simplify(&mut self) -> bool` become explicit state-passing functions
`σ → Bool × σ`. -/
structure ValueTree (σ α : Type) where
  current : σ → α
  simplify : σ → Bool × σ
  complicate : σ → Bool × σ

/-- The `VecValueTree` struct (`collection.rs`).  `included_elements` is the
`VarBitSet` of indices currently counting toward the visible value, modelled
as a `Finset ℕ` (`VarBitSet::len` is the set's cardinality). -/
structure VecValueTree (σ : Type) where
  elements : List σ
  included_elements : Finset ℕ
  min_size : Nat
  shrink : Shrink
  prev_shrink : Option Shrink
deriving DecidableEq

/-- `VecValueTree::current`: iterate the elements with their indices, keep
those whose index is in `included_elements`, and read each survivor's
current value. -/
def VecValueTree.current (impl : ValueTree σ α) (t : VecValueTree σ) : List α :=
  ((t.elements.enum.filter (fun p => p.1 ∈ t.included_elements)).map
    (fun p => impl.current p.2))

/-- One pass of the `while let Shrink::ShrinkElement(ix) = self.shrink` loop
inside `VecValueTree::simplify`, with an explicit structural gas parameter
so the kernel can evaluate it.  `none` models the `Unexpected shrink state`
panic reached when the loop is entered with a `DeleteElement` cursor (the
loop body never produces that cursor, so falling out of the loop means the
panic); `none` is also returned on gas exhaustion, and `whileShrink` below
always supplies provably sufficient gas. -/
def whileShrinkAux (impl : ValueTree σ α) :
    Nat → VecValueTree σ → Option (Bool × VecValueTree σ)
  | 0, _ => none
  | gas + 1, t =>
    match t.shrink with
    | .DeleteElement _ => none
    | .ShrinkElement ix =>
      if h : t.elements.length ≤ ix then
        -- Nothing more we can do
        some (false, t)
      else if ix ∉ t.included_elements then
        -- No use shrinking something we're not including.
        whileShrinkAux impl gas { t with shrink := .ShrinkElement (ix + 1) }
      else
        match impl.simplify (t.elements.get ⟨ix, Nat.lt_of_not_le h⟩) with
        | (false, e) =>
          -- Move on to the next element
          whileShrinkAux impl gas
            { t with elements := t.elements.set ix e,
                     shrink := .ShrinkElement (ix + 1) }
        | (true, e) =>
          some (true,
            { t with elements := t.elements.set ix e,
                     prev_shrink := some (.ShrinkElement ix) })

/-- The `ShrinkElement` loop of `VecValueTree::simplify`, with gas
`length + 1`, which `whileShrinkAux_isSome_of_gas` below proves sufficient
for any starting cursor `ShrinkElement ix`. -/
def whileShrink (impl : ValueTree σ α) (t : VecValueTree σ) :
    Option (Bool × VecValueTree σ) :=
  whileShrinkAux impl (t.elements.length + 1) t

/-- `VecValueTree::simplify`.  Phase 1 (`if let Shrink::DeleteElement(ix)`)
either deletes index `ix` and returns `true`, or switches the cursor to
`ShrinkElement 0` and falls through to the loop of phase 2. -/
def VecValueTree.simplify (impl : ValueTree σ α) (t : VecValueTree σ) :
    Option (Bool × VecValueTree σ) :=
  match t.shrink with
  | .DeleteElement ix =>
    if t.elements.length ≤ ix ∨ t.included_elements.card = t.min_size then
      -- Can't delete: switch to shrinking and fall through to the loop.
      whileShrink impl { t with shrink := .ShrinkElement 0 }
    else
      some (true,
        { t with included_elements := t.included_elements.erase ix,
                 prev_shrink := some (.DeleteElement ix),
                 shrink := .DeleteElement (ix + 1) })
  | .ShrinkElement _ => whileShrink impl t

/-- `VecValueTree::complicate`.  `none` models the out-of-bounds index panic
of `self.elements[ix]` (never reached from states the engine produces). -/
def VecValueTree.complicate (impl : ValueTree σ α) (t : VecValueTree σ) :
    Option (Bool × VecValueTree σ) :=
  match t.prev_shrink with
  | none => some (false, t)
  | some (.DeleteElement ix) =>
    -- Undo the last item we deleted.
    some (true,
      { t with included_elements := insert ix t.included_elements,
               prev_shrink := none })
  | some (.ShrinkElement ix) =>
    match t.elements.get? ix with
    | none => none
    | some e =>
      match impl.complicate e with
      | (true, e2) =>
        -- Don't unset prev_shrink; we may be able to complicate again.
        some (true, { t with elements := t.elements.set ix e2 })
      | (false, e2) =>
        -- Can't complicate the last element any further.
        some (false,
          { t with elements := t.elements.set ix e2, prev_shrink := none })

/-- Generate the element trees of `VecStrategy::new_tree`: the
`while elements.len() < max_size { elements.push(self.element.new_tree(runner)?) }`
loop, threading the runner state `ρ`.  `elemNew` is the element strategy's
`new_tree`; `none` models a propagated rejection (`?`). -/
def genElements (elemNew : ρ → Option (σ × ρ)) :
    Nat → ρ → Option (List σ × ρ)
  | 0, r => some ([], r)
  | n + 1, r =>
    match elemNew r with
    | none => none
    | some (e, r1) =>
      match genElements elemNew n r1 with
      | none => none
      | some (es, r2) => some (e :: es, r2)

/-- `VecStrategy::new_tree`: extract `(start, end)` from the size bound,
draw `max_size = sample_uniform_incl(runner, start, end)` (the runner's
uniform inclusive sampler, an external capability modelled by the
parameter `sample`), generate that many element trees in order, and build
the initial tree. -/
def vecNewTree (sample : ρ → Nat → Nat → Nat × ρ)
    (elemNew : ρ → Option (σ × ρ)) (size : SizeRange) (r : ρ) :
    Option (VecValueTree σ × ρ) :=
  let drawn := sample r size.low size.high
  match genElements elemNew drawn.1 drawn.2 with
  | none => none
  | some (es, r2) =>
    some ({ elements := es,
            included_elements := Finset.range drawn.1,
            min_size := size.low,
            shrink := .DeleteElement 0,
            prev_shrink := none }, r2)

/-- The `TupleValueTree` struct (`tuple.rs`): a wrapper around the tuple of
component trees.  The `tuple!` macro generates, for every arity 1 through
12, the same `ValueTree` impl whose `simplify` and `complicate` bodies are
the constant `false`; the wrapper and those two methods are arity-generic,
so they are modelled once for an arbitrary payload `T`. -/
structure TupleValueTree (T : Type) where
  tree : T

/-- `TupleValueTree::new`. -/
def TupleValueTree.new (inner : T) : TupleValueTree T := ⟨inner⟩

/-- `TupleValueTree::simplify` (every arity): `false`, state untouched. -/
def TupleValueTree.simplify (t : TupleValueTree T) : Bool × TupleValueTree T :=
  (false, t)

/-- `TupleValueTree::complicate` (every arity): `false`, state untouched. -/
def TupleValueTree.complicate (t : TupleValueTree T) : Bool × TupleValueTree T :=
  (false, t)

/-- `TupleValueTree::current` at arity 1: `(self.tree.0.current(),)`. -/
def TupleValueTree.current1 (ia : ValueTree σa α) (t : TupleValueTree σa) : α :=
  ia.current t.tree

/-- `TupleValueTree::current` at arity 2:
`(self.tree.0.current(), self.tree.1.current())`; arities 3–12 follow the
same element-wise pattern from the `tuple!` macro. -/
def TupleValueTree.current2 (ia : ValueTree σa α) (ib : ValueTree σb β)
    (t : TupleValueTree (σa × σb)) : α × β :=
  (ia.current t.tree.1, ib.current t.tree.2)

/-- The `FlattenValueTree` struct (`flatten.rs`): the meta tree (state `μ`),
the committed inner tree (state `ι`, field `current` in Rust, named `curr`
here so that the method keeps the source name), the inert
`final_complication` slot, the retained runner (state `ρ`), and the
regeneration budget counter. -/
structure FlattenValueTree (μ ι ρ : Type) where
  meta : μ
  curr : ι
  final_complication : Option ι
  runner : ρ
  complicate_regen_remaining : Nat

/-- `FlattenValueTree::current`: delegates to the committed inner tree. -/
def FlattenValueTree.current (inner : ValueTree ι α)
    (t : FlattenValueTree μ ι ρ) : α :=
  inner.current t.curr

/-- `FlattenValueTree::simplify`: hard-wired `false`, state untouched. -/
def FlattenValueTree.simplify (t : FlattenValueTree μ ι ρ) :
    Bool × FlattenValueTree μ ι ρ :=
  (false, t)

/-- `FlattenValueTree::complicate`: hard-wired `false`, state untouched. -/
def FlattenValueTree.complicate (t : FlattenValueTree μ ι ρ) :
    Bool × FlattenValueTree μ ι ρ :=
  (false, t)

/-! ### Derived notions used by the verification: initial states,
reachability, the engine invariant, iterated simplification, and the
spec-modelled artifacts needed for the concrete shrink scenario. -/

/-- The shape `VecStrategy::new_tree` gives a fresh tree: every index
included, cursor at `DeleteElement 0`, no recorded action, and a floor not
exceeding the generated length. -/
def IsInitial (t : VecValueTree σ) : Prop :=
  t.included_elements = Finset.range t.elements.length ∧
  t.min_size ≤ t.elements.length ∧
  t.shrink = .DeleteElement 0 ∧
  t.prev_shrink = none

instance (t : VecValueTree σ) : Decidable (IsInitial t) := by
  unfold IsInitial
  infer_instance

/-- The states a tree can be in during one test case: a fresh tree, or the
result of any sequence of (non-panicking) `simplify`/`complicate` calls. -/
inductive Reachable (impl : ValueTree σ α) : VecValueTree σ → Prop where
  | init (t : VecValueTree σ) : IsInitial t → Reachable impl t
  | simplify_step (t t' : VecValueTree σ) (b : Bool) :
      Reachable impl t → t.simplify impl = some (b, t') → Reachable impl t'
  | complicate_step (t t' : VecValueTree σ) (b : Bool) :
      Reachable impl t → t.complicate impl = some (b, t') → Reachable impl t'

/-- Structural invariant maintained by `simplify` and `complicate`: the
inclusion count never drops below the floor; while the cursor still names
`DeleteElement i`, every in-range index at or beyond `i` is still included
(deletion proceeds in ascending order and visits each index once); and any
recorded action names an in-range index. -/
def Inv (t : VecValueTree σ) : Prop :=
  t.min_size ≤ t.included_elements.card ∧
  (∀ i j, t.shrink = .DeleteElement i → i ≤ j → j < t.elements.length →
    j ∈ t.included_elements) ∧
  (∀ i, t.prev_shrink = some (.DeleteElement i) → i < t.elements.length) ∧
  (∀ i, t.prev_shrink = some (.ShrinkElement i) → i < t.elements.length)

/-- Iterated `simplify`: apply the step `n` times, threading the state. -/
def simplifyN (impl : ValueTree σ α) : Nat → VecValueTree σ →
    Option (VecValueTree σ)
  | 0, t => some t
  | n + 1, t =>
    match t.simplify impl with
    | none => none
    | some (_, t') => simplifyN impl n t'

/-- A run of `k` consecutive successful `simplify` calls each of which
records a deletion. -/
def DeleteChain (impl : ValueTree σ α) : Nat → VecValueTree σ →
    VecValueTree σ → Prop
  | 0, t, t2 => t2 = t
  | k + 1, t, t2 =>
    ∃ t1 ix, t.simplify impl = some (true, t1) ∧
      t1.prev_shrink = some (.DeleteElement ix) ∧ DeleteChain impl k t1 t2

/-- Modelled from the spec: the integer-range element strategy
(`1usize..20usize` in the concrete scenario) lives in `num.rs`, which is not
part of the excerpted sources.  Its value tree holds the smallest value not
yet ruled out (`lo`) and the current value; per the spec, `simplify` moves
one step toward the minimal value and records the previous value, and
`complicate` undoes the most recent `simplify` while ruling the smaller
values out so the search never revisits a value already ruled out. -/
structure IntValueTree where
  lo : Nat
  curr : Nat
  prev : Option Nat
deriving DecidableEq, Repr

/-- Modelled from the spec: the `ValueTree` operations of the integer-range
element strategy (see `IntValueTree`). -/
def IntImpl : ValueTree IntValueTree Nat where
  current t := t.curr
  simplify t :=
    if t.curr ≤ t.lo then (false, t)
    else (true, { lo := t.lo, curr := t.curr - 1, prev := some t.curr })
  complicate t :=
    match t.prev with
    | none => (false, t)
    | some p => (true, { lo := p, curr := p, prev := none })

/-- Modelled from the spec: the randomized backend's shrink loop
(`TestRunner::run_one`, in `test_runner.rs`, outside the excerpted
sources): while the current value fails the body, `simplify`; once it
passes, `complicate`; stop and report the current value when the active
call reports no change.  `fuel` bounds the iteration count so the model is
executable; every concrete run below terminates well within it. -/
def shrinkLoop (impl : ValueTree σ α) (fails : List α → Bool) :
    Nat → VecValueTree σ → Option (VecValueTree σ)
  | 0, _ => none
  | fuel + 1, t =>
    if fails (t.current impl) then
      match t.simplify impl with
      | none => none
      | some (true, t') => shrinkLoop impl fails fuel t'
      | some (false, t') => some t'
    else
      match t.complicate impl with
      | none => none
      | some (true, t') => shrinkLoop impl fails fuel t'
      | some (false, t') => some t'

/-- The tree `VecStrategy::new_tree` produces when the drawn element trees
are `vals` (each an integer-range tree over `[1, 20)` with current value as
listed) and the size bound's lower end is `minSz`. -/
def mkInitialTree (vals : List Nat) (minSz : Nat) : VecValueTree IntValueTree :=
  { elements := vals.map (fun v => { lo := 1, curr := v, prev := none }),
    included_elements := Finset.range vals.length,
    min_size := minSz,
    shrink := .DeleteElement 0,
    prev_shrink := none }

/-- The property body of the concrete scenario (`test_vec`): reject any
sequence whose sum is at least 9 (`prop_assert!(sum < 9)` fails exactly
when `9 ≤ sum`). -/
def sumFails (v : List Nat) : Bool := decide (9 ≤ v.sum)

/-- Read-only projection used by the analysis of the concrete scenario: a
`ValueTree` view of the modelled integer tree exposing the smallest
not-yet-ruled-out value instead of the current one.  Feeding it to
`VecValueTree.current` yields the list of `lo` fields of the included
elements, so existing lemmas about `current` apply to it. -/
def LoImpl : ValueTree IntValueTree Nat where
  current e := e.lo
  simplify e := (false, e)
  complicate e := (false, e)

/-- Sum of the visible (included) elements' current values. -/
def curSum (t : VecValueTree IntValueTree) : Nat :=
  (t.current IntImpl).sum

/-- Sum of the visible (included) elements' `lo` fields. -/
def loSum (t : VecValueTree IntValueTree) : Nat :=
  (t.current LoImpl).sum

/-- Invariant of the concrete scenario's shrink search, maintained by the
modelled loop between iterations that start from a failing value.  Beyond
the engine invariant `Inv`: the floor is 5; the inclusion set is in range;
elements keep `1 ≤ lo ≤ curr`; during the deletion phase no `lo` has been
raised and every re-included index below the cursor holds a value within 8
of the current sum (it survived a deletion that made the test pass);
during the element-shrink phase the inclusion count is at most 9, either
the `lo`-sum is at most 9 or no `lo` has been raised, and every included
index below the cursor is stuck (`curr = lo`). -/
def ScenarioInv (t : VecValueTree IntValueTree) : Prop :=
  Inv t ∧
  t.min_size = 5 ∧
  (∀ i ∈ t.included_elements, i < t.elements.length) ∧
  (∀ e ∈ t.elements, 1 ≤ e.lo ∧ e.lo ≤ e.curr) ∧
  (∀ d, t.shrink = .DeleteElement d → ∀ e ∈ t.elements, e.lo = 1) ∧
  (∀ d, t.shrink = .DeleteElement d → ∀ i ∈ t.included_elements, i < d →
    ∀ hi : i < t.elements.length,
      curSum t ≤ (t.elements.get ⟨i, hi⟩).curr + 8) ∧
  (∀ s, t.shrink = .ShrinkElement s → t.included_elements.card ≤ 9) ∧
  (∀ s, t.shrink = .ShrinkElement s →
    loSum t ≤ 9 ∨ ∀ e ∈ t.elements, e.lo = 1) ∧
  (∀ s, t.shrink = .ShrinkElement s → ∀ i ∈ t.included_elements, i < s →
    ∀ hi : i < t.elements.length,
      (t.elements.get ⟨i, hi⟩).curr = (t.elements.get ⟨i, hi⟩).lo)

/-- The cursor's index, whichever phase it names. -/
def shrinkIdxOf : Shrink → Nat
  | .DeleteElement i => i
  | .ShrinkElement i => i

/-- Sum over all element slots of how far the current value sits above the
smallest not-yet-ruled-out value; part of the termination measure. -/
def phi (t : VecValueTree IntValueTree) : Nat :=
  (t.elements.map (fun e => e.curr - e.lo)).sum

/-- Weight of the cursor in the termination measure: a large constant for
still being in the deletion phase, plus twice the remaining cursor
distance. -/
def shrinkW (L : Nat) : Shrink → Nat
  | .DeleteElement d => 2 * L + 3 + 2 * (L + 1 - min d (L + 1))
  | .ShrinkElement s => 2 * (L + 1 - min s (L + 1))

/-- Weight of the recorded action in the termination measure: one for a
pending deletion undo. -/
def prevW : Option Shrink → Nat
  | some (.DeleteElement _) => 1
  | _ => 0

/-- Termination measure for the modelled shrink loop on the concrete
scenario: the cursor weight, the total shrinking slack `phi`, and the
recorded-action weight. -/
def measureM (t : VecValueTree IntValueTree) : Nat :=
  shrinkW t.elements.length t.shrink + phi t + prevW t.prev_shrink

/-! ### Basic lemmas about the `ShrinkElement` loop -/

lemma whileShrinkAux_out (impl : ValueTree σ α) (gas : Nat) (t : VecValueTree σ)
    (ix : Nat) (hs : t.shrink = .ShrinkElement ix) (h : t.elements.length ≤ ix) :
    whileShrinkAux impl (gas + 1) t = some (false, t) := by
  simp only [whileShrinkAux]
  rw [hs]
  simp [h]

lemma whileShrinkAux_skip (impl : ValueTree σ α) (gas : Nat) (t : VecValueTree σ)
    (ix : Nat) (hs : t.shrink = .ShrinkElement ix) (h : ix < t.elements.length)
    (hmem : ix ∉ t.included_elements) :
    whileShrinkAux impl (gas + 1) t =
      whileShrinkAux impl gas { t with shrink := .ShrinkElement (ix + 1) } := by
  simp only [whileShrinkAux]
  rw [hs]
  simp [Nat.not_le_of_lt h, hmem]

lemma whileShrinkAux_fail (impl : ValueTree σ α) (gas : Nat) (t : VecValueTree σ)
    (ix : Nat) (e : σ) (hs : t.shrink = .ShrinkElement ix)
    (h : ix < t.elements.length) (hmem : ix ∈ t.included_elements)
    (he : impl.simplify (t.elements.get ⟨ix, h⟩) = (false, e)) :
    whileShrinkAux impl (gas + 1) t =
      whileShrinkAux impl gas
        { t with elements := t.elements.set ix e,
                 shrink := .ShrinkElement (ix + 1) } := by
  simp only [whileShrinkAux]
  rw [hs]
  simp only [dif_neg (Nat.not_le_of_lt h), hmem, not_true_eq_false, ite_false]
  rw [he]

lemma whileShrinkAux_succ (impl : ValueTree σ α) (gas : Nat) (t : VecValueTree σ)
    (ix : Nat) (e : σ) (hs : t.shrink = .ShrinkElement ix)
    (h : ix < t.elements.length) (hmem : ix ∈ t.included_elements)
    (he : impl.simplify (t.elements.get ⟨ix, h⟩) = (true, e)) :
    whileShrinkAux impl (gas + 1) t =
      some (true,
        { t with elements := t.elements.set ix e,
                 prev_shrink := some (.ShrinkElement ix) }) := by
  simp only [whileShrinkAux]
  rw [hs]
  simp only [dif_neg (Nat.not_le_of_lt h), hmem, not_true_eq_false, ite_false]
  rw [he]

/-- The value of `whileShrinkAux` does not depend on the gas, as long as the
gas covers the distance from the cursor to the end of the sequence. -/
lemma whileShrinkAux_gas_congr (impl : ValueTree σ α) :
    ∀ gas gas' (t : VecValueTree σ) (ix : Nat),
    t.shrink = .ShrinkElement ix →
    1 ≤ gas → t.elements.length + 1 ≤ gas + ix →
    1 ≤ gas' → t.elements.length + 1 ≤ gas' + ix →
    whileShrinkAux impl gas t = whileShrinkAux impl gas' t := by
  intro gas
  induction gas with
  | zero => intro gas' t ix _ hg _ _ _; omega
  | succ g ih =>
    intro gas' t ix hs _ h1 hg' h1'
    obtain ⟨g', rfl⟩ : ∃ g', gas' = g' + 1 := ⟨gas' - 1, by omega⟩
    by_cases hlen : t.elements.length ≤ ix
    · rw [whileShrinkAux_out impl g t ix hs hlen,
        whileShrinkAux_out impl g' t ix hs hlen]
    · have hlt : ix < t.elements.length := by omega
      by_cases hmem : ix ∈ t.included_elements
      · rcases he : impl.simplify (t.elements.get ⟨ix, hlt⟩) with ⟨b, e⟩
        cases b with
        | true =>
          rw [whileShrinkAux_succ impl g t ix e hs hlt hmem he,
            whileShrinkAux_succ impl g' t ix e hs hlt hmem he]
        | false =>
          rw [whileShrinkAux_fail impl g t ix e hs hlt hmem he,
            whileShrinkAux_fail impl g' t ix e hs hlt hmem he]
          exact ih g' _ (ix + 1) rfl (by omega) (by simp only [List.length_set, VecValueTree.mk.injEq]; omega)
            (by omega) (by simp only [List.length_set, VecValueTree.mk.injEq]; omega)
      · rw [whileShrinkAux_skip impl g t ix hs hlt hmem,
          whileShrinkAux_skip impl g' t ix hs hlt hmem]
        exact ih g' _ (ix + 1) rfl (by omega) (by simp only [List.length_set, VecValueTree.mk.injEq]; omega)
          (by omega) (by simp only [List.length_set, VecValueTree.mk.injEq]; omega)

lemma whileShrink_eq_aux (impl : ValueTree σ α) (t : VecValueTree σ) (ix : Nat)
    (hs : t.shrink = .ShrinkElement ix) (gas : Nat)
    (hg : 1 ≤ gas) (h1 : t.elements.length + 1 ≤ gas + ix) :
    whileShrink impl t = whileShrinkAux impl gas t :=
  whileShrinkAux_gas_congr impl (t.elements.length + 1) gas t ix hs
    (by omega) (by omega) hg h1

lemma whileShrink_out (impl : ValueTree σ α) (t : VecValueTree σ) (ix : Nat)
    (hs : t.shrink = .ShrinkElement ix) (h : t.elements.length ≤ ix) :
    whileShrink impl t = some (false, t) := by
  rw [whileShrink, show t.elements.length + 1 = t.elements.length + 1 from rfl]
  exact whileShrinkAux_out impl t.elements.length t ix hs h

lemma whileShrink_skip (impl : ValueTree σ α) (t : VecValueTree σ) (ix : Nat)
    (hs : t.shrink = .ShrinkElement ix) (h : ix < t.elements.length)
    (hmem : ix ∉ t.included_elements) :
    whileShrink impl t =
      whileShrink impl { t with shrink := .ShrinkElement (ix + 1) } := by
  rw [whileShrink, whileShrinkAux_skip impl t.elements.length t ix hs h hmem]
  exact (whileShrink_eq_aux impl _ (ix + 1) rfl t.elements.length
    (by omega) (by simp)).symm

lemma whileShrink_fail (impl : ValueTree σ α) (t : VecValueTree σ) (ix : Nat)
    (e : σ) (hs : t.shrink = .ShrinkElement ix) (h : ix < t.elements.length)
    (hmem : ix ∈ t.included_elements)
    (he : impl.simplify (t.elements.get ⟨ix, h⟩) = (false, e)) :
    whileShrink impl t =
      whileShrink impl
        { t with elements := t.elements.set ix e,
                 shrink := .ShrinkElement (ix + 1) } := by
  rw [whileShrink, whileShrinkAux_fail impl t.elements.length t ix e hs h hmem he]
  exact (whileShrink_eq_aux impl _ (ix + 1) rfl t.elements.length
    (by omega) (by simp)).symm

lemma whileShrink_succ (impl : ValueTree σ α) (t : VecValueTree σ) (ix : Nat)
    (e : σ) (hs : t.shrink = .ShrinkElement ix) (h : ix < t.elements.length)
    (hmem : ix ∈ t.included_elements)
    (he : impl.simplify (t.elements.get ⟨ix, h⟩) = (true, e)) :
    whileShrink impl t =
      some (true,
        { t with elements := t.elements.set ix e,
                 prev_shrink := some (.ShrinkElement ix) }) := by
  rw [whileShrink, show t.elements.length + 1 = t.elements.length + 1 from rfl]
  exact whileShrinkAux_succ impl t.elements.length t ix e hs h hmem he

/-- Given a `ShrinkElement` cursor, the loop always terminates through one
of its `return` statements: it never falls through to the `panic`. -/
lemma whileShrink_isSome (impl : ValueTree σ α) (t : VecValueTree σ) (ix : Nat)
    (hs : t.shrink = .ShrinkElement ix) :
    (whileShrink impl t).isSome := by
  suffices h : ∀ gas (t : VecValueTree σ) (ix : Nat),
      t.shrink = .ShrinkElement ix → 1 ≤ gas →
      t.elements.length + 1 ≤ gas + ix →
      (whileShrinkAux impl gas t).isSome by
    exact h (t.elements.length + 1) t ix hs (by omega) (by omega)
  intro gas
  induction gas with
  | zero => intro t ix _ hg _; omega
  | succ g ih =>
    intro t ix hs _ h1
    by_cases hlen : t.elements.length ≤ ix
    · rw [whileShrinkAux_out impl g t ix hs hlen]; rfl
    · have hlt : ix < t.elements.length := by omega
      by_cases hmem : ix ∈ t.included_elements
      · rcases he : impl.simplify (t.elements.get ⟨ix, hlt⟩) with ⟨b, e⟩
        cases b with
        | true => rw [whileShrinkAux_succ impl g t ix e hs hlt hmem he]; rfl
        | false =>
          rw [whileShrinkAux_fail impl g t ix e hs hlt hmem he]
          exact ih _ (ix + 1) rfl (by omega) (by simp only [List.length_set, VecValueTree.mk.injEq]; omega)
      · rw [whileShrinkAux_skip impl g t ix hs hlt hmem]
        exact ih _ (ix + 1) rfl (by omega) (by simp only [List.length_set, VecValueTree.mk.injEq]; omega)

/-- The `ShrinkElement` loop never touches the inclusion marker set, the
minimum-size floor, or the number of elements. -/
lemma whileShrinkAux_preserves (impl : ValueTree σ α) :
    ∀ gas (t : VecValueTree σ) (ix : Nat) (b : Bool) (t' : VecValueTree σ),
    t.shrink = .ShrinkElement ix →
    whileShrinkAux impl gas t = some (b, t') →
    t'.included_elements = t.included_elements ∧ t'.min_size = t.min_size ∧
      t'.elements.length = t.elements.length := by
  intro gas
  induction gas with
  | zero => intro t ix b t' _ hrun; simp [whileShrinkAux] at hrun
  | succ g ih =>
    intro t ix b t' hs hrun
    by_cases hlen : t.elements.length ≤ ix
    · rw [whileShrinkAux_out impl g t ix hs hlen] at hrun
      obtain ⟨rfl, rfl⟩ : b = false ∧ t' = t := by
        simpa [eq_comm] using hrun
      exact ⟨rfl, rfl, rfl⟩
    · have hlt : ix < t.elements.length := by omega
      by_cases hmem : ix ∈ t.included_elements
      · rcases he : impl.simplify (t.elements.get ⟨ix, hlt⟩) with ⟨br, e⟩
        cases br with
        | true =>
          rw [whileShrinkAux_succ impl g t ix e hs hlt hmem he] at hrun
          obtain ⟨rfl, rfl⟩ : b = true ∧
              t' = { t with elements := t.elements.set ix e,
                            prev_shrink := some (.ShrinkElement ix) } := by
            simpa [eq_comm] using hrun
          simp
        | false =>
          rw [whileShrinkAux_fail impl g t ix e hs hlt hmem he] at hrun
          have := ih _ (ix + 1) b t' rfl hrun
          simpa using this
      · rw [whileShrinkAux_skip impl g t ix hs hlt hmem] at hrun
        have := ih _ (ix + 1) b t' rfl hrun
        simpa using this

/-- Characterization of a successful pass of the `ShrinkElement` loop: some
included index `j` at or after the cursor had its element tree successfully
simplified; the cursor rests on `j`, the action `ShrinkElement j` is
recorded, elements strictly below the starting cursor are untouched, and
every other element apart from `j` is either untouched or the (unchanged)
result of a failed simplification attempt. -/
lemma whileShrinkAux_true (impl : ValueTree σ α) :
    ∀ gas (t t' : VecValueTree σ) (ix : Nat),
    t.shrink = .ShrinkElement ix →
    whileShrinkAux impl gas t = some (true, t') →
    ∃ j, ∃ hj : j < t.elements.length,
      ix ≤ j ∧ j ∈ t.included_elements ∧
      t'.shrink = .ShrinkElement j ∧
      t'.prev_shrink = some (.ShrinkElement j) ∧
      t'.included_elements = t.included_elements ∧
      t'.min_size = t.min_size ∧
      t'.elements.length = t.elements.length ∧
      (impl.simplify (t.elements.get ⟨j, hj⟩)).1 = true ∧
      (∀ hj' : j < t'.elements.length,
        t'.elements.get ⟨j, hj'⟩ = (impl.simplify (t.elements.get ⟨j, hj⟩)).2) ∧
      (∀ k (hk : k < t.elements.length) (hk' : k < t'.elements.length),
        k < ix →
        t'.elements.get ⟨k, hk'⟩ = t.elements.get ⟨k, hk⟩) ∧
      (∀ k (hk : k < t.elements.length) (hk' : k < t'.elements.length),
        ix ≤ k → k ≠ j →
        t'.elements.get ⟨k, hk'⟩ = t.elements.get ⟨k, hk⟩ ∨
        ((impl.simplify (t.elements.get ⟨k, hk⟩)).1 = false ∧
         t'.elements.get ⟨k, hk'⟩ = (impl.simplify (t.elements.get ⟨k, hk⟩)).2)) := by
  intro gas
  induction gas with
  | zero => intro t t' ix _ hrun; simp [whileShrinkAux] at hrun
  | succ g ih =>
    intro t t' ix hs hrun
    by_cases hlen : t.elements.length ≤ ix
    · rw [whileShrinkAux_out impl g t ix hs hlen] at hrun
      simp at hrun
    · have hlt : ix < t.elements.length := by omega
      by_cases hmem : ix ∈ t.included_elements
      · rcases he : impl.simplify (t.elements.get ⟨ix, hlt⟩) with ⟨br, e⟩
        cases br with
        | true =>
          rw [whileShrinkAux_succ impl g t ix e hs hlt hmem he] at hrun
          have ht' : t' = { t with elements := t.elements.set ix e,
                                   prev_shrink := some (.ShrinkElement ix) } := by
            simpa [eq_comm] using hrun
          subst ht'
          refine ⟨ix, hlt, le_refl ix, hmem, hs, rfl, rfl, rfl, by simp,
            by rw [he], ?_, ?_, ?_⟩
          · intro hj'
            rw [he]
            simp [List.get_eq_getElem]
          · intro k hk hk' hklt
            have : k ≠ ix := by omega
            simp [List.get_eq_getElem, List.getElem_set_of_ne (Ne.symm this)]
          · intro k hk hk' _ hkne
            left
            simp [List.get_eq_getElem, List.getElem_set_of_ne (Ne.symm hkne)]
        | false =>
          rw [whileShrinkAux_fail impl g t ix e hs hlt hmem he] at hrun
          obtain ⟨j, hj, hji, hjmem, hsh, hprev, hinc, hmin, hlen2, hsimp, hat,
            hlow, hrest⟩ := ih _ t' (ix + 1) rfl hrun
          simp only [List.length_set] at hj hlen2
          have hjne : j ≠ ix := by omega
          have hgetj : ∀ hj0 : j < (t.elements.set ix e).length,
              (t.elements.set ix e).get ⟨j, hj0⟩ = t.elements.get ⟨j, hj⟩ := by
            intro hj0
            simp [List.get_eq_getElem, List.getElem_set_of_ne (Ne.symm hjne)]
          refine ⟨j, hj, by omega, by simpa using hjmem, hsh, hprev,
            by simpa using hinc, hmin, by simpa using hlen2, ?_, ?_, ?_, ?_⟩
          · have h0 := hsimp
            rwa [hgetj] at h0
          · intro hj'
            have h0 := hat hj'
            rwa [hgetj] at h0
          · intro k hk hk' hklt
            have h0 := hlow k (by simpa using hk) hk' (by omega)
            rwa [show (t.elements.set ix e).get ⟨k, by simpa using hk⟩ =
              t.elements.get ⟨k, hk⟩ by
                have : k ≠ ix := by omega
                simp [List.get_eq_getElem,
                  List.getElem_set_of_ne (Ne.symm this)]] at h0
          · intro k hk hk' hkge hkne
            by_cases hkix : k = ix
            · subst hkix
              right
              refine ⟨by rw [he], ?_⟩
              have h0 := hlow k (by simpa using hk) hk' (by omega)
              rw [show (t.elements.set k e).get ⟨k, by simpa using hk⟩ = e by
                simp [List.get_eq_getElem]] at h0
              rw [he, h0]
            · have h0 := hrest k (by simpa using hk) hk' (by omega) hkne
              rwa [show (t.elements.set ix e).get ⟨k, by simpa using hk⟩ =
                t.elements.get ⟨k, hk⟩ by
                  simp [List.get_eq_getElem,
                    List.getElem_set_of_ne (Ne.symm hkix)]] at h0
      · rw [whileShrinkAux_skip impl g t ix hs hlt hmem] at hrun
        obtain ⟨j, hj, hji, hjmem, hsh, hprev, hinc, hmin, hlen2, hsimp, hat,
          hlow, hrest⟩ := ih _ t' (ix + 1) rfl hrun
        refine ⟨j, hj, by omega, hjmem, hsh, hprev, hinc, hmin, hlen2, hsimp,
          hat, ?_, ?_⟩
        · intro k hk hk' hklt
          exact hlow k hk hk' (by omega)
        · intro k hk hk' hkge hkne
          by_cases hkix : k = ix
          · subst hkix
            left
            exact hlow k hk hk' (by omega)
          · exact hrest k hk hk' (by omega) hkne

/-! ### Case lemmas for `VecValueTree::simplify` -/

lemma simplify_of_shrink (impl : ValueTree σ α) (t : VecValueTree σ)
    (ix : Nat) (hs : t.shrink = .ShrinkElement ix) :
    t.simplify impl = whileShrink impl t := by
  simp only [VecValueTree.simplify]
  rw [hs]

lemma simplify_of_delete (impl : ValueTree σ α) (t : VecValueTree σ)
    (ix : Nat) (hs : t.shrink = .DeleteElement ix) :
    t.simplify impl =
      if t.elements.length ≤ ix ∨ t.included_elements.card = t.min_size then
        whileShrink impl { t with shrink := .ShrinkElement 0 }
      else
        some (true,
          { t with included_elements := t.included_elements.erase ix,
                   prev_shrink := some (.DeleteElement ix),
                   shrink := .DeleteElement (ix + 1) }) := by
  simp only [VecValueTree.simplify]
  rw [hs]

lemma simplify_delete_guard (impl : ValueTree σ α) (t : VecValueTree σ)
    (ix : Nat) (hs : t.shrink = .DeleteElement ix)
    (hg : t.elements.length ≤ ix ∨ t.included_elements.card = t.min_size) :
    t.simplify impl =
      VecValueTree.simplify impl { t with shrink := .ShrinkElement 0 } := by
  rw [simplify_of_delete impl t ix hs, if_pos hg,
    simplify_of_shrink impl _ 0 rfl]

lemma simplify_delete (impl : ValueTree σ α) (t : VecValueTree σ) (ix : Nat)
    (hs : t.shrink = .DeleteElement ix) (hlen : ix < t.elements.length)
    (hcard : t.included_elements.card ≠ t.min_size) :
    t.simplify impl =
      some (true,
        { t with included_elements := t.included_elements.erase ix,
                 prev_shrink := some (.DeleteElement ix),
                 shrink := .DeleteElement (ix + 1) }) := by
  rw [simplify_of_delete impl t ix hs,
    if_neg (by push_neg; exact ⟨by omega, hcard⟩)]

lemma simplify_shrink_out (impl : ValueTree σ α) (t : VecValueTree σ)
    (ix : Nat) (hs : t.shrink = .ShrinkElement ix)
    (hlen : t.elements.length ≤ ix) :
    t.simplify impl = some (false, t) := by
  rw [simplify_of_shrink impl t ix hs]
  exact whileShrink_out impl t ix hs hlen

lemma simplify_shrink_skip (impl : ValueTree σ α) (t : VecValueTree σ)
    (ix : Nat) (hs : t.shrink = .ShrinkElement ix)
    (hlen : ix < t.elements.length) (hmem : ix ∉ t.included_elements) :
    t.simplify impl =
      VecValueTree.simplify impl { t with shrink := .ShrinkElement (ix + 1) } := by
  rw [simplify_of_shrink impl t ix hs, simplify_of_shrink impl _ (ix + 1) rfl]
  exact whileShrink_skip impl t ix hs hlen hmem

lemma simplify_shrink_succ (impl : ValueTree σ α) (t : VecValueTree σ)
    (ix : Nat) (e : σ) (hs : t.shrink = .ShrinkElement ix)
    (hlen : ix < t.elements.length) (hmem : ix ∈ t.included_elements)
    (he : impl.simplify (t.elements.get ⟨ix, hlen⟩) = (true, e)) :
    t.simplify impl =
      some (true,
        { t with elements := t.elements.set ix e,
                 prev_shrink := some (.ShrinkElement ix) }) := by
  rw [simplify_of_shrink impl t ix hs]
  exact whileShrink_succ impl t ix e hs hlen hmem he

lemma simplify_shrink_fail (impl : ValueTree σ α) (t : VecValueTree σ)
    (ix : Nat) (e : σ) (hs : t.shrink = .ShrinkElement ix)
    (hlen : ix < t.elements.length) (hmem : ix ∈ t.included_elements)
    (he : impl.simplify (t.elements.get ⟨ix, hlen⟩) = (false, e)) :
    t.simplify impl =
      VecValueTree.simplify impl
        { t with elements := t.elements.set ix e,
                 shrink := .ShrinkElement (ix + 1) } := by
  rw [simplify_of_shrink impl t ix hs, simplify_of_shrink impl _ (ix + 1) rfl]
  exact whileShrink_fail impl t ix e hs hlen hmem he

/-- `VecValueTree::simplify` always exits through one of its `return`
statements: for every tree state whatsoever (in particular every state
reachable from `new_tree`), the trailing `Unexpected shrink state` panic is
not reached. -/
lemma simplify_isSome (impl : ValueTree σ α) (t : VecValueTree σ) :
    (t.simplify impl).isSome := by
  rcases hs : t.shrink with ix | ix
  · rw [simplify_of_delete impl t ix hs]
    by_cases hg : t.elements.length ≤ ix ∨ t.included_elements.card = t.min_size
    · rw [if_pos hg]
      exact whileShrink_isSome impl _ 0 rfl
    · rw [if_neg hg]
      rfl
  · rw [simplify_of_shrink impl t ix hs]
    exact whileShrink_isSome impl t ix hs

/-! ### The reachable-state invariant of the shrink engine -/

lemma inv_of_initial (t : VecValueTree σ) (h : IsInitial t) : Inv t := by
  obtain ⟨hinc, hmin, hs, hp⟩ := h
  refine ⟨?_, ?_, ?_, ?_⟩
  · rw [hinc, Finset.card_range]
    exact hmin
  · intro i j _ _ hj
    rw [hinc, Finset.mem_range]
    exact hj
  · intro i hi
    rw [hp] at hi
    cases hi
  · intro i hi
    rw [hp] at hi
    cases hi

/-- A `(false, t')` result of the `ShrinkElement` loop leaves the cursor at
some `ShrinkElement k` past the end and the recorded action untouched. -/
lemma whileShrinkAux_false (impl : ValueTree σ α) :
    ∀ gas (t t' : VecValueTree σ) (ix : Nat),
    t.shrink = .ShrinkElement ix →
    whileShrinkAux impl gas t = some (false, t') →
    ∃ k, ix ≤ k ∧ t.elements.length ≤ k ∧ t'.shrink = .ShrinkElement k ∧
      t'.prev_shrink = t.prev_shrink := by
  intro gas
  induction gas with
  | zero => intro t t' ix _ hrun; simp [whileShrinkAux] at hrun
  | succ g ih =>
    intro t t' ix hs hrun
    by_cases hlen : t.elements.length ≤ ix
    · rw [whileShrinkAux_out impl g t ix hs hlen] at hrun
      obtain rfl : t = t' := by simpa using hrun
      exact ⟨ix, le_refl ix, hlen, hs, rfl⟩
    · have hlt : ix < t.elements.length := by omega
      by_cases hmem : ix ∈ t.included_elements
      · rcases he : impl.simplify (t.elements.get ⟨ix, hlt⟩) with ⟨br, e⟩
        cases br with
        | true =>
          rw [whileShrinkAux_succ impl g t ix e hs hlt hmem he] at hrun
          simp at hrun
        | false =>
          rw [whileShrinkAux_fail impl g t ix e hs hlt hmem he] at hrun
          obtain ⟨k, hk1, hk2, hk3, hk4⟩ := ih _ t' (ix + 1) rfl hrun
          simp only [List.length_set] at hk2
          exact ⟨k, by omega, hk2, hk3, hk4⟩
      · rw [whileShrinkAux_skip impl g t ix hs hlt hmem] at hrun
        obtain ⟨k, hk1, hk2, hk3, hk4⟩ := ih _ t' (ix + 1) rfl hrun
        exact ⟨k, by omega, hk2, hk3, hk4⟩

lemma whileShrink_inv (impl : ValueTree σ α) (t t' : VecValueTree σ)
    (ix : Nat) (b : Bool) (hs : t.shrink = .ShrinkElement ix) (hinv : Inv t)
    (hrun : whileShrink impl t = some (b, t')) : Inv t' := by
  obtain ⟨hi1, hi2, hi3, hi4⟩ := hinv
  obtain ⟨hpinc, hpmin, hplen⟩ :=
    whileShrinkAux_preserves impl (t.elements.length + 1) t ix b t' hs hrun
  cases b with
  | true =>
    obtain ⟨j, hj, _, _, hsh, hprev, _, _, _, _, _, _, _⟩ :=
      whileShrinkAux_true impl (t.elements.length + 1) t t' ix hs hrun
    refine ⟨by rw [hpinc, hpmin]; exact hi1, ?_, ?_, ?_⟩
    · intro i k hdel _ _
      rw [hsh] at hdel
      cases hdel
    · intro i hp
      rw [hprev] at hp
      cases hp
    · intro i hp
      rw [hprev] at hp
      injection hp with hp
      injection hp with hp
      omega
  | false =>
    obtain ⟨k, _, _, hsh, hprev⟩ :=
      whileShrinkAux_false impl (t.elements.length + 1) t t' ix hs hrun
    refine ⟨by rw [hpinc, hpmin]; exact hi1, ?_, ?_, ?_⟩
    · intro i kk hdel _ _
      rw [hsh] at hdel
      cases hdel
    · intro i hp
      rw [hprev] at hp
      rw [hplen]
      exact hi3 i hp
    · intro i hp
      rw [hprev] at hp
      rw [hplen]
      exact hi4 i hp

lemma inv_simplify (impl : ValueTree σ α) (t t' : VecValueTree σ) (b : Bool)
    (hinv : Inv t) (hrun : t.simplify impl = some (b, t')) : Inv t' := by
  rcases hs : t.shrink with ix | ix
  · rw [simplify_of_delete impl t ix hs] at hrun
    by_cases hg : t.elements.length ≤ ix ∨ t.included_elements.card = t.min_size
    · rw [if_pos hg] at hrun
      have hinv1 : Inv ({ t with shrink := .ShrinkElement 0 } : VecValueTree σ) := by
        obtain ⟨h1, h2, h3, h4⟩ := hinv
        refine ⟨h1, ?_, h3, h4⟩
        intro i j hd _ _
        cases hd
      exact whileShrink_inv impl _ t' 0 b rfl hinv1 hrun
    · rw [if_neg hg] at hrun
      push_neg at hg
      obtain ⟨hlen, hcard⟩ := hg
      obtain ⟨rfl, rfl⟩ : b = true ∧
          t' = { t with included_elements := t.included_elements.erase ix,
                        prev_shrink := some (.DeleteElement ix),
                        shrink := .DeleteElement (ix + 1) } := by
        simpa [eq_comm] using hrun
      obtain ⟨h1, h2, h3, h4⟩ := hinv
      have hmem : ix ∈ t.included_elements :=
        h2 ix ix hs (le_refl ix) (by omega)
      refine ⟨?_, ?_, ?_, ?_⟩
      · simp only [Finset.card_erase_of_mem hmem]
        omega
      · intro i j hd hij hjlen
        injection hd with hd
        subst hd
        simp only [Finset.mem_erase]
        exact ⟨by omega, h2 ix j hs (by omega) hjlen⟩
      · intro i hp
        injection hp with hp
        injection hp with hp
        show i < t.elements.length
        omega
      · intro i hp
        injection hp with hp
        cases hp
  · rw [simplify_of_shrink impl t ix hs] at hrun
    exact whileShrink_inv impl t t' ix b hs hinv hrun

lemma complicate_of_none (impl : ValueTree σ α) (t : VecValueTree σ)
    (hp : t.prev_shrink = none) :
    t.complicate impl = some (false, t) := by
  unfold VecValueTree.complicate
  simp only [hp]

lemma complicate_of_delete (impl : ValueTree σ α) (t : VecValueTree σ)
    (ix : Nat) (hp : t.prev_shrink = some (.DeleteElement ix)) :
    t.complicate impl =
      some (true,
        { t with included_elements := insert ix t.included_elements,
                 prev_shrink := none }) := by
  unfold VecValueTree.complicate
  simp only [hp]

lemma complicate_shrink_true (impl : ValueTree σ α) (t : VecValueTree σ)
    (ix : Nat) (e e2 : σ) (hp : t.prev_shrink = some (.ShrinkElement ix))
    (hq : t.elements.get? ix = some e) (hc : impl.complicate e = (true, e2)) :
    t.complicate impl =
      some (true, { t with elements := t.elements.set ix e2 }) := by
  unfold VecValueTree.complicate
  simp only [hp, hq, hc]

lemma complicate_shrink_false (impl : ValueTree σ α) (t : VecValueTree σ)
    (ix : Nat) (e e2 : σ) (hp : t.prev_shrink = some (.ShrinkElement ix))
    (hq : t.elements.get? ix = some e) (hc : impl.complicate e = (false, e2)) :
    t.complicate impl =
      some (false,
        { t with elements := t.elements.set ix e2,
                 prev_shrink := none }) := by
  unfold VecValueTree.complicate
  simp only [hp, hq, hc]

lemma inv_complicate (impl : ValueTree σ α) (t t' : VecValueTree σ) (b : Bool)
    (hinv : Inv t) (hrun : t.complicate impl = some (b, t')) : Inv t' := by
  obtain ⟨h1, h2, h3, h4⟩ := hinv
  rcases hp : t.prev_shrink with _ | ps
  · rw [complicate_of_none impl t hp] at hrun
    obtain ⟨rfl, rfl⟩ : b = false ∧ t' = t := by simpa [eq_comm] using hrun
    exact ⟨h1, h2, h3, h4⟩
  · rcases ps with ix | ix
    · rw [complicate_of_delete impl t ix hp] at hrun
      obtain ⟨rfl, rfl⟩ : b = true ∧
          t' = { t with included_elements := insert ix t.included_elements,
                        prev_shrink := none } := by
        simpa [eq_comm] using hrun
      refine ⟨?_, ?_, ?_, ?_⟩
      · exact le_trans h1 (Finset.card_le_card (Finset.subset_insert ix _))
      · intro i j hd hij hjlen
        exact Finset.mem_insert_of_mem (h2 i j hd hij hjlen)
      · intro i hpp
        cases hpp
      · intro i hpp
        cases hpp
    · rcases hq : t.elements.get? ix with _ | e
      · unfold VecValueTree.complicate at hrun
        simp only [hp, hq] at hrun
        exact Option.noConfusion hrun
      · rcases hc : impl.complicate e with ⟨bc, e2⟩
        cases bc with
        | true =>
          rw [complicate_shrink_true impl t ix e e2 hp hq hc] at hrun
          obtain ⟨rfl, rfl⟩ : b = true ∧
              t' = { t with elements := t.elements.set ix e2 } := by
            simpa [eq_comm] using hrun
          refine ⟨h1, ?_, ?_, ?_⟩
          · intro i j hd hij hjlen
            simp only [List.length_set] at hjlen
            exact h2 i j hd hij hjlen
          · intro i hpp
            simp only [List.length_set]
            exact h3 i hpp
          · intro i hpp
            simp only [List.length_set]
            exact h4 i hpp
        | false =>
          rw [complicate_shrink_false impl t ix e e2 hp hq hc] at hrun
          obtain ⟨rfl, rfl⟩ : b = false ∧
              t' = { t with elements := t.elements.set ix e2,
                            prev_shrink := none } := by
            simpa [eq_comm] using hrun
          refine ⟨h1, ?_, ?_, ?_⟩
          · intro i j hd hij hjlen
            simp only [List.length_set] at hjlen
            exact h2 i j hd hij hjlen
          · intro i hpp
            cases hpp
          · intro i hpp
            cases hpp

/-- Every reachable state satisfies the invariant. -/
lemma reachable_inv (impl : ValueTree σ α) (t : VecValueTree σ)
    (h : Reachable impl t) : Inv t := by
  induction h with
  | init t h0 => exact inv_of_initial t h0
  | simplify_step t t' b _ hrun ih => exact inv_simplify impl t t' b ih hrun
  | complicate_step t t' b _ hrun ih => exact inv_complicate impl t t' b ih hrun

/-! ### Lemmas about `VecValueTree::current` -/

lemma enumFrom_filter_map_congr (impl : ValueTree σ α) (S : Finset ℕ) :
    ∀ (l1 : List σ) (n : Nat) (l2 : List σ), l1.length = l2.length →
    (∀ k (h1 : k < l1.length) (h2 : k < l2.length),
      impl.current (l1.get ⟨k, h1⟩) = impl.current (l2.get ⟨k, h2⟩)) →
    ((l1.enumFrom n).filter (fun p => p.1 ∈ S)).map (fun p => impl.current p.2)
      = ((l2.enumFrom n).filter (fun p => p.1 ∈ S)).map
          (fun p => impl.current p.2) := by
  intro l1
  induction l1 with
  | nil =>
    intro n l2 hlen _
    rw [List.length_nil] at hlen
    rw [List.eq_nil_of_length_eq_zero hlen.symm]
  | cons a l1 ih =>
    intro n l2 hlen hcur
    rcases l2 with _ | ⟨b, l2⟩
    · simp at hlen
    · have hheads : impl.current a = impl.current b :=
        hcur 0 (by simp) (by simp)
      have htails := ih (n + 1) l2 (by simpa using hlen)
        (fun k h1 h2 => hcur (k + 1) (by simpa using h1) (by simpa using h2))
      simp only [List.enumFrom_cons, List.filter_cons]
      by_cases hn : n ∈ S
      · simp [hn, hheads, htails]
      · simp [hn, htails]

/-- The visible value of a tree depends only on the element currents, the
inclusion set and the length. -/
lemma current_congr (impl : ValueTree σ α) (t1 t2 : VecValueTree σ)
    (hlen : t1.elements.length = t2.elements.length)
    (hinc : t1.included_elements = t2.included_elements)
    (hcur : ∀ k (h1 : k < t1.elements.length) (h2 : k < t2.elements.length),
      impl.current (t1.elements.get ⟨k, h1⟩) =
        impl.current (t2.elements.get ⟨k, h2⟩)) :
    t1.current impl = t2.current impl := by
  unfold VecValueTree.current
  rw [hinc]
  exact enumFrom_filter_map_congr impl t2.included_elements t1.elements 0
    t2.elements hlen hcur

lemma enumFrom_filter_length (S : Finset ℕ) :
    ∀ (l : List σ) (n : Nat),
    ((l.enumFrom n).filter (fun p => p.1 ∈ S)).length
      = ((List.range' n l.length).filter (fun k => k ∈ S)).length := by
  intro l
  induction l with
  | nil => intro n; simp
  | cons a l ih =>
    intro n
    rw [List.length_cons, List.range'_succ n l.length 1]
    simp only [List.enumFrom_cons, List.filter_cons]
    by_cases hn : n ∈ S
    · simp [hn, ih (n + 1)]
    · simp [hn, ih (n + 1)]

/-- The length of the visible value counts the in-range included indices. -/
lemma current_length (impl : ValueTree σ α) (t : VecValueTree σ) :
    (t.current impl).length
      = ((List.range t.elements.length).filter
          (fun k => k ∈ t.included_elements)).length := by
  unfold VecValueTree.current
  rw [List.length_map, List.range_eq_range' t.elements.length]
  exact enumFrom_filter_length t.included_elements t.elements 0

lemma filter_length_mono {p q : ℕ → Bool}
    (hpq : ∀ a, p a = true → q a = true) (l : List ℕ) :
    (l.filter p).length ≤ (l.filter q).length :=
  (List.monotone_filter_right l hpq).length_le

/-- A fresh tree (all indices included) shows all its elements. -/
lemma current_length_initial (impl : ValueTree σ α) (t : VecValueTree σ)
    (hinc : t.included_elements = Finset.range t.elements.length) :
    (t.current impl).length = t.elements.length := by
  rw [current_length impl t, hinc]
  have hall : (List.range t.elements.length).filter
      (fun k => k ∈ Finset.range t.elements.length)
      = List.range t.elements.length := by
    rw [List.filter_eq_self]
    intro a ha
    rw [List.mem_range] at ha
    simpa [Finset.mem_range] using ha
  rw [hall, List.length_range]

/-! ### Undo correctness: a successful `simplify` followed by `complicate` -/

/-- Undo correctness through the element-shrink loop.  `Hfail` and `Hundo`
are the `ValueTree` contract obligations of the element type: a failed
`simplify` does not change the visible value, and a successful `simplify`
can be undone by `complicate`. -/
lemma whileShrink_undo (impl : ValueTree σ α)
    (Hfail : ∀ e e2, impl.simplify e = (false, e2) →
      impl.current e2 = impl.current e)
    (Hundo : ∀ e e2, impl.simplify e = (true, e2) →
      ∃ e3, impl.complicate e2 = (true, e3) ∧
        impl.current e3 = impl.current e)
    (t t' : VecValueTree σ) (ix : Nat) (hs : t.shrink = .ShrinkElement ix)
    (hrun : whileShrink impl t = some (true, t')) :
    ∃ t2, t'.complicate impl = some (true, t2) ∧
      t2.current impl = t.current impl := by
  obtain ⟨j, hj, hjix, hjmem, hsj, hprev, hinc, hmin, hlen2, hsimp, hat,
    hlow, hrest⟩ := whileShrinkAux_true impl (t.elements.length + 1) t t' ix hs hrun
  set ej := t.elements.get ⟨j, hj⟩ with hej
  have hsimp2 : impl.simplify ej = (true, (impl.simplify ej).2) := by
    rw [← hsimp]
  obtain ⟨e3, hc, hcur3⟩ := Hundo ej (impl.simplify ej).2 hsimp2
  have hj' : j < t'.elements.length := by omega
  have hq : t'.elements.get? j = some (impl.simplify ej).2 := by
    rw [List.get?_eq_get hj', hat hj']
  have hcomp := complicate_shrink_true impl t' j (impl.simplify ej).2 e3
    hprev hq hc
  refine ⟨{ t' with elements := t'.elements.set j e3 }, hcomp, ?_⟩
  apply current_congr impl _ t (by simpa using hlen2) (by simpa using hinc)
  intro k h1 h2
  by_cases hkj : k = j
  · subst hkj
    have hset : (t'.elements.set k e3).get ⟨k, by simpa using h1⟩ = e3 := by
      simp [List.get_eq_getElem]
    simp only [hset]
    rw [hcur3, hej]
  · have hset : (t'.elements.set j e3).get ⟨k, by simpa using h1⟩ =
        t'.elements.get ⟨k, by simpa using h1⟩ := by
      simp [List.get_eq_getElem, List.getElem_set_of_ne (Ne.symm hkj)]
    simp only [hset]
    by_cases hkix : k < ix
    · rw [hlow k h2 (by simpa using h1) hkix]
    · rcases hrest k h2 (by simpa using h1) (by omega) hkj with heq | ⟨hf, heq⟩
      · rw [heq]
      · rw [heq]
        apply Hfail
        rw [← hf]

/-- For every state satisfying the invariant (hence for every reachable
state), a successful `simplify` is undone exactly by the following
`complicate`: it returns `true` and restores the previous visible value. -/
lemma simplify_complicate_undo (impl : ValueTree σ α)
    (Hfail : ∀ e e2, impl.simplify e = (false, e2) →
      impl.current e2 = impl.current e)
    (Hundo : ∀ e e2, impl.simplify e = (true, e2) →
      ∃ e3, impl.complicate e2 = (true, e3) ∧
        impl.current e3 = impl.current e)
    (t t' : VecValueTree σ) (hinv : Inv t)
    (hrun : t.simplify impl = some (true, t')) :
    ∃ t2, t'.complicate impl = some (true, t2) ∧
      t2.current impl = t.current impl := by
  rcases hs : t.shrink with ix | ix
  · rw [simplify_of_delete impl t ix hs] at hrun
    by_cases hg : t.elements.length ≤ ix ∨ t.included_elements.card = t.min_size
    · rw [if_pos hg] at hrun
      have h0 := whileShrink_undo impl Hfail Hundo
        { t with shrink := .ShrinkElement 0 } t' 0 rfl hrun
      obtain ⟨t2, hc, hcur⟩ := h0
      exact ⟨t2, hc, hcur⟩
    · rw [if_neg hg] at hrun
      push_neg at hg
      obtain ⟨hlen, hcard⟩ := hg
      obtain rfl : t' = { t with included_elements := t.included_elements.erase ix,
                                 prev_shrink := some (.DeleteElement ix),
                                 shrink := .DeleteElement (ix + 1) } := by
        simpa [eq_comm] using hrun
      have hmem : ix ∈ t.included_elements :=
        hinv.2.1 ix ix hs (le_refl ix) (by omega)
      refine ⟨_, complicate_of_delete impl _ ix rfl, ?_⟩
      refine current_congr impl _ t ?_ ?_ ?_
      · rfl
      · simpa using Finset.insert_erase hmem
      · intro k h1 h2
        rfl
  · rw [simplify_of_shrink impl t ix hs] at hrun
    exact whileShrink_undo impl Hfail Hundo t t' ix hs hrun

/-! ### Monotonicity and termination of the deletion phase -/

/-- One `simplify` call never grows the inclusion set, and leaves the
element count and the floor alone. -/
lemma simplify_shape (impl : ValueTree σ α) (t t' : VecValueTree σ) (b : Bool)
    (hrun : t.simplify impl = some (b, t')) :
    t'.included_elements ⊆ t.included_elements ∧
      t'.elements.length = t.elements.length ∧
      t'.min_size = t.min_size := by
  rcases hs : t.shrink with ix | ix
  · rw [simplify_of_delete impl t ix hs] at hrun
    by_cases hg : t.elements.length ≤ ix ∨ t.included_elements.card = t.min_size
    · rw [if_pos hg] at hrun
      obtain ⟨hinc, hmin, hlen⟩ := whileShrinkAux_preserves impl _ _ 0 b t' rfl hrun
      exact ⟨by rw [hinc], by rw [hlen], by rw [hmin]⟩
    · rw [if_neg hg] at hrun
      obtain ⟨rfl, rfl⟩ : b = true ∧
          t' = { t with included_elements := t.included_elements.erase ix,
                        prev_shrink := some (.DeleteElement ix),
                        shrink := .DeleteElement (ix + 1) } := by
        simpa [eq_comm] using hrun
      exact ⟨Finset.erase_subset ix t.included_elements, rfl, rfl⟩
  · rw [simplify_of_shrink impl t ix hs] at hrun
    obtain ⟨hinc, hmin, hlen⟩ := whileShrinkAux_preserves impl _ _ ix b t' hs hrun
    exact ⟨by rw [hinc], by rw [hlen], by rw [hmin]⟩

/-- One `simplify` call never increases the length of the visible value. -/
lemma simplify_current_length (impl : ValueTree σ α) (t t' : VecValueTree σ)
    (b : Bool) (hrun : t.simplify impl = some (b, t')) :
    (t'.current impl).length ≤ (t.current impl).length := by
  obtain ⟨hinc, hlen, _⟩ := simplify_shape impl t t' b hrun
  rw [current_length impl t', current_length impl t, hlen]
  apply filter_length_mono
  intro a ha
  simp only [decide_eq_true_eq] at ha ⊢
  exact hinc ha

lemma simplifyN_current_length (impl : ValueTree σ α) :
    ∀ (n : Nat) (t t' : VecValueTree σ), simplifyN impl n t = some t' →
    (t'.current impl).length ≤ (t.current impl).length := by
  intro n
  induction n with
  | zero =>
    intro t t' h
    obtain rfl : t = t' := by simpa [simplifyN] using h
    exact le_refl _
  | succ n ih =>
    intro t t' h
    rcases hstep : t.simplify impl with _ | ⟨b, t1⟩
    · simp [simplifyN, hstep] at h
    · simp only [simplifyN, hstep] at h
      exact le_trans (ih t1 t' h) (simplify_current_length impl t t1 b hstep)

/-- Once the inclusion count has reached the floor, `simplify` performs no
further deletion: the inclusion set is left exactly as it is. -/
lemma simplify_at_floor (impl : ValueTree σ α) (t t' : VecValueTree σ)
    (b : Bool) (hfloor : t.included_elements.card = t.min_size)
    (hrun : t.simplify impl = some (b, t')) :
    t'.included_elements = t.included_elements := by
  rcases hs : t.shrink with ix | ix
  · rw [simplify_of_delete impl t ix hs, if_pos (Or.inr hfloor)] at hrun
    exact (whileShrinkAux_preserves impl _ _ 0 b t' rfl hrun).1
  · rw [simplify_of_shrink impl t ix hs] at hrun
    exact (whileShrinkAux_preserves impl _ _ ix b t' hs hrun).1

/-- A successful `simplify` whose recorded action is a deletion removes
exactly one included index. -/
lemma simplify_delete_card (impl : ValueTree σ α) (t t' : VecValueTree σ)
    (i : Nat) (hinv : Inv t) (hrun : t.simplify impl = some (true, t'))
    (hprev : t'.prev_shrink = some (.DeleteElement i)) :
    t'.included_elements.card + 1 = t.included_elements.card ∧
      t'.min_size = t.min_size := by
  rcases hs : t.shrink with ix | ix
  · rw [simplify_of_delete impl t ix hs] at hrun
    by_cases hg : t.elements.length ≤ ix ∨ t.included_elements.card = t.min_size
    · rw [if_pos hg] at hrun
      obtain ⟨j, _, _, _, _, hpj, _, _, _, _, _, _, _⟩ :=
        whileShrinkAux_true impl _ _ t' 0 rfl hrun
      rw [hpj] at hprev
      injection hprev with hprev
      cases hprev
    · rw [if_neg hg] at hrun
      push_neg at hg
      obtain ⟨hlen, hcard⟩ := hg
      obtain rfl : t' = { t with included_elements := t.included_elements.erase ix,
                                 prev_shrink := some (.DeleteElement ix),
                                 shrink := .DeleteElement (ix + 1) } := by
        simpa [eq_comm] using hrun
      have hmem : ix ∈ t.included_elements :=
        hinv.2.1 ix ix hs (le_refl ix) (by omega)
      constructor
      · show (t.included_elements.erase ix).card + 1 = t.included_elements.card
        rw [Finset.card_erase_of_mem hmem]
        have : 1 ≤ t.included_elements.card := Finset.card_pos.mpr ⟨ix, hmem⟩
        omega
      · rfl
  · rw [simplify_of_shrink impl t ix hs] at hrun
    obtain ⟨j, _, _, _, _, hpj, _, _, _, _, _, _, _⟩ :=
      whileShrinkAux_true impl _ _ t' ix hs hrun
    rw [hpj] at hprev
    injection hprev with hprev
    cases hprev

lemma deleteChain_card (impl : ValueTree σ α) :
    ∀ (k : Nat) (t t2 : VecValueTree σ), Inv t → DeleteChain impl k t t2 →
    k + t2.included_elements.card ≤ t.included_elements.card ∧
      t2.min_size = t.min_size ∧ Inv t2 := by
  intro k
  induction k with
  | zero =>
    intro t t2 hinv hchain
    obtain rfl : t2 = t := hchain
    exact ⟨by omega, rfl, hinv⟩
  | succ k ih =>
    intro t t2 hinv hchain
    obtain ⟨t1, ix, hstep, hprev, hrest⟩ := hchain
    obtain ⟨hcard, hmin⟩ := simplify_delete_card impl t t1 ix hinv hstep hprev
    have hinv1 : Inv t1 := inv_simplify impl t t1 true hinv hstep
    obtain ⟨ih1, ih2, ih3⟩ := ih t1 t2 hinv1 hrest
    exact ⟨by omega, by rw [ih2, hmin], ih3⟩

/-! ### Generation and the element contract of the modelled integer tree -/

lemma genElements_length (elemNew : ρ → Option (σ × ρ)) :
    ∀ (n : Nat) (r : ρ) (es : List σ) (r2 : ρ),
    genElements elemNew n r = some (es, r2) → es.length = n := by
  intro n
  induction n with
  | zero =>
    intro r es r2 h
    obtain ⟨rfl, rfl⟩ : es = [] ∧ r2 = r := by
      simpa [genElements, eq_comm] using h
    rfl
  | succ n ih =>
    intro r es r2 h
    rcases h1 : elemNew r with _ | ⟨e, r1⟩
    · simp [genElements, h1] at h
    · rcases h2 : genElements elemNew n r1 with _ | ⟨es1, r3⟩
      · simp [genElements, h1, h2] at h
      · simp only [genElements, h1, h2] at h
        have h4 := Option.some.inj h
        rw [Prod.ext_iff] at h4
        obtain ⟨h5, _⟩ := h4
        simp only at h5
        rw [← h5, List.length_cons, ih r1 es1 r3 h2]

/-- The modelled integer tree honours the contract that a failed `simplify`
leaves the visible value unchanged. -/
lemma intImpl_fail : ∀ e e2 : IntValueTree,
    IntImpl.simplify e = (false, e2) → IntImpl.current e2 = IntImpl.current e := by
  intro e e2 h
  by_cases hc : e.curr ≤ e.lo
  · obtain rfl : e2 = e := by simpa [IntImpl, hc, eq_comm] using h
    rfl
  · simp [IntImpl, hc] at h

/-- The modelled integer tree honours the contract that a successful
`simplify` can be undone by `complicate`, restoring the visible value. -/
lemma intImpl_undo : ∀ e e2 : IntValueTree,
    IntImpl.simplify e = (true, e2) →
    ∃ e3, IntImpl.complicate e2 = (true, e3) ∧
      IntImpl.current e3 = IntImpl.current e := by
  intro e e2 h
  by_cases hc : e.curr ≤ e.lo
  · simp [IntImpl, hc] at h
  · obtain rfl : e2 = { lo := e.lo, curr := e.curr - 1, prev := some e.curr } := by
      simpa [IntImpl, hc, eq_comm] using h
    exact ⟨{ lo := e.curr, curr := e.curr, prev := none }, rfl, rfl⟩

/-! ### Sum and length toolbox for the concrete scenario analysis -/

lemma mem_enumFrom_get : ∀ (l : List σ) (k : Nat) (p : Nat × σ),
    p ∈ l.enumFrom k →
    k ≤ p.1 ∧ ∃ h : p.1 - k < l.length, p.2 = l.get ⟨p.1 - k, h⟩ := by
  intro l
  induction l with
  | nil => intro k p hp; simp at hp
  | cons a l ih =>
    intro k p hp
    rw [List.enumFrom_cons] at hp
    rcases List.mem_cons.mp hp with rfl | hp
    · exact ⟨le_refl k, by simp, by simp⟩
    · obtain ⟨hk, h, hget⟩ := ih (k + 1) p hp
      refine ⟨by omega, by simp; omega, ?_⟩
      rw [hget]
      have hidx : p.1 - k = (p.1 - (k + 1)) + 1 := by omega
      simp only [List.get_eq_getElem, hidx, List.getElem_cons_succ]

lemma sum_le_of_forall_le (c : Nat) :
    ∀ (L : List Nat), (∀ x ∈ L, c ≤ x) → L.length * c ≤ L.sum := by
  intro L
  induction L with
  | nil => simp
  | cons a L ih =>
    intro h
    have ha := h a (List.mem_cons_self a L)
    have hL := ih (fun x hx => h x (List.mem_cons_of_mem a hx))
    simp only [List.length_cons, List.sum_cons]
    calc (L.length + 1) * c = L.length * c + c := by ring
    _ ≤ L.sum + a := by omega
    _ = a + L.sum := by omega

lemma enumFrom_filter_erase_eq (A : Finset ℕ) (d : Nat) :
    ∀ (l : List σ) (k : Nat), d < k →
    (l.enumFrom k).filter (fun p => p.1 ∈ A.erase d)
      = (l.enumFrom k).filter (fun p => p.1 ∈ A) := by
  intro l k hdk
  apply List.filter_congr
  intro p hp
  obtain ⟨hk, _, _⟩ := mem_enumFrom_get l k p hp
  simp only [decide_eq_decide, Finset.mem_erase]
  constructor
  · exact fun h => h.2
  · exact fun h => ⟨by omega, h⟩

lemma enumFrom_filter_map_sum_erase (A : Finset ℕ) (f : σ → Nat) :
    ∀ (l : List σ) (k d : Nat), k ≤ d → ∀ hd : d - k < l.length, d ∈ A →
    (((l.enumFrom k).filter (fun p => p.1 ∈ A.erase d)).map
      (fun p => f p.2)).sum + f (l.get ⟨d - k, hd⟩)
    = (((l.enumFrom k).filter (fun p => p.1 ∈ A)).map (fun p => f p.2)).sum := by
  intro l
  induction l with
  | nil => intro k d _ hd; simp at hd
  | cons a l ih =>
    intro k d hkd hd hdA
    rw [List.enumFrom_cons]
    by_cases hk : k = d
    · subst hk
      have hdrop : k ∉ A.erase k := by simp
      have hkeep : k ∈ A := hdA
      simp only [List.filter_cons, decide_eq_true_eq]
      rw [if_pos hkeep, if_neg hdrop]
      rw [enumFrom_filter_erase_eq A k l (k + 1) (by omega)]
      have hget : (a :: l).get ⟨k - k, hd⟩ = a := by
        simp [List.get_eq_getElem]
      rw [hget]
      simp only [List.map_cons, List.sum_cons]
      omega
    · have hkd2 : k + 1 ≤ d := by omega
      have hd2 : d - (k + 1) < l.length := by
        simp only [List.length_cons] at hd
        omega
      have hrec := ih (k + 1) d hkd2 hd2 hdA
      have hka : (k ∈ A.erase d) = (k ∈ A) := by
        simp [Finset.mem_erase, hk]
      have hget : (a :: l).get ⟨d - k, hd⟩ = l.get ⟨d - (k + 1), hd2⟩ := by
        have hidx : d - k = (d - (k + 1)) + 1 := by omega
        simp only [List.get_eq_getElem, hidx, List.getElem_cons_succ]
      rw [hget]
      by_cases hmem : k ∈ A
      · have hmem2 : k ∈ A.erase d := by simp [Finset.mem_erase, hk, hmem]
        simp only [List.filter_cons, decide_eq_true_eq]
        rw [if_pos hmem, if_pos hmem2]
        simp only [List.map_cons, List.sum_cons]
        omega
      · have hmem2 : k ∉ A.erase d := fun hc => hmem (Finset.mem_of_mem_erase hc)
        simp only [List.filter_cons, decide_eq_true_eq]
        rw [if_neg hmem, if_neg hmem2]
        exact hrec

lemma enumFrom_filter_map_sum_set (A : Finset ℕ) (f : σ → Nat) (e2 : σ) :
    ∀ (l : List σ) (k j : Nat), k ≤ j → ∀ hj : j - k < l.length, j ∈ A →
    ((((l.set (j - k) e2).enumFrom k).filter (fun p => p.1 ∈ A)).map
      (fun p => f p.2)).sum + f (l.get ⟨j - k, hj⟩)
    = (((l.enumFrom k).filter (fun p => p.1 ∈ A)).map (fun p => f p.2)).sum
      + f e2 := by
  intro l
  induction l with
  | nil => intro k j _ hj; simp at hj
  | cons a l ih =>
    intro k j hkj hj hjA
    by_cases hk : k = j
    · subst hk
      have hset : (a :: l).set (k - k) e2 = e2 :: l := by
        simp
      rw [hset, List.enumFrom_cons, List.enumFrom_cons]
      simp only [List.filter_cons, decide_eq_true_eq]
      rw [if_pos hjA, if_pos hjA]
      have hget : (a :: l).get ⟨k - k, hj⟩ = a := by
        simp [List.get_eq_getElem]
      rw [hget]
      simp only [List.map_cons, List.sum_cons]
      omega
    · have hkj2 : k + 1 ≤ j := by omega
      have hj2 : j - (k + 1) < l.length := by
        simp only [List.length_cons] at hj
        omega
      have hidx : j - k = (j - (k + 1)) + 1 := by omega
      have hset : (a :: l).set (j - k) e2 = a :: l.set (j - (k + 1)) e2 := by
        rw [hidx]
        rfl
      have hget : (a :: l).get ⟨j - k, hj⟩ = l.get ⟨j - (k + 1), hj2⟩ := by
        simp only [List.get_eq_getElem, hidx, List.getElem_cons_succ]
      rw [hset, hget, List.enumFrom_cons, List.enumFrom_cons]
      have hrec := ih (k + 1) j hkj2 hj2 hjA
      by_cases hmem : k ∈ A
      · simp only [List.filter_cons, decide_eq_true_eq]
        rw [if_pos hmem, if_pos hmem]
        simp only [List.map_cons, List.sum_cons]
        omega
      · simp only [List.filter_cons, decide_eq_true_eq]
        rw [if_neg hmem, if_neg hmem]
        exact hrec

/-- Deleting an included index removes exactly its current value from the
visible sum. -/
lemma curSum_erase (t : VecValueTree IntValueTree) (d : Nat)
    (hd : d < t.elements.length) (hdA : d ∈ t.included_elements) :
    curSum { t with included_elements := t.included_elements.erase d,
                    prev_shrink := some (.DeleteElement d),
                    shrink := .DeleteElement (d + 1) }
      + (t.elements.get ⟨d, hd⟩).curr = curSum t := by
  unfold curSum VecValueTree.current
  have h := enumFrom_filter_map_sum_erase t.included_elements
    (fun e => IntImpl.current e) t.elements 0 d (by omega) (by simpa using hd)
    hdA
  simpa using h

/-- Replacing an included element replaces exactly its contribution to the
visible sum (stated for any read-out `impl`, used for `IntImpl`). -/
lemma current_sum_set (impl : ValueTree IntValueTree Nat)
    (t : VecValueTree IntValueTree) (j : Nat) (e2 : IntValueTree)
    (hj : j < t.elements.length) (hjA : j ∈ t.included_elements) :
    (VecValueTree.current impl
        { t with elements := t.elements.set j e2 }).sum
      + impl.current (t.elements.get ⟨j, hj⟩)
    = (t.current impl).sum + impl.current e2 := by
  unfold VecValueTree.current
  have h := enumFrom_filter_map_sum_set t.included_elements
    (fun e => impl.current e) e2 t.elements 0 j (by omega)
    (by simpa using hj) hjA
  simpa using h

/-- When every included element is stuck (`curr = lo`), the visible sum
equals the `lo`-sum. -/
lemma curSum_eq_loSum (t : VecValueTree IntValueTree)
    (h : ∀ i ∈ t.included_elements, ∀ hi : i < t.elements.length,
      (t.elements.get ⟨i, hi⟩).curr = (t.elements.get ⟨i, hi⟩).lo) :
    curSum t = loSum t := by
  unfold curSum loSum VecValueTree.current
  congr 1
  apply List.map_congr_left
  intro p hp
  have hpf := List.mem_filter.mp hp
  obtain ⟨_, hidx, hget⟩ := mem_enumFrom_get t.elements 0 p hpf.1
  simp only [Nat.sub_zero] at hidx hget
  have hmem : p.1 ∈ t.included_elements := by
    simpa using hpf.2
  have := h p.1 hmem hidx
  rw [hget]
  exact this

/-- Every entry of the visible value is the current value of some included
in-range element. -/
lemma mem_current (impl : ValueTree IntValueTree Nat)
    (t : VecValueTree IntValueTree) (x : Nat) (hx : x ∈ t.current impl) :
    ∃ i, ∃ hi : i < t.elements.length, i ∈ t.included_elements ∧
      x = impl.current (t.elements.get ⟨i, hi⟩) := by
  unfold VecValueTree.current at hx
  obtain ⟨p, hp, hpx⟩ := List.mem_map.mp hx
  have hpf := List.mem_filter.mp hp
  obtain ⟨_, hidx, hget⟩ := mem_enumFrom_get t.elements 0 p hpf.1
  simp only [Nat.sub_zero] at hidx hget
  exact ⟨p.1, hidx, by simpa using hpf.2, by rw [← hpx, hget]⟩

lemma range_filter_length_eq_card (n : Nat) (p : ℕ → Bool) :
    ((List.range n).filter p).length
      = ((Finset.range n).filter (fun i => p i = true)).card := by
  induction n with
  | zero => simp
  | succ n ih =>
    rw [List.range_succ, Finset.range_succ, List.filter_append,
      Finset.filter_insert]
    by_cases hp : p n = true
    · rw [List.length_append]
      simp only [List.filter_cons, hp, if_true]
      rw [Finset.card_insert_of_not_mem (by simp)]
      simp [ih]
    · rw [List.length_append]
      simp only [List.filter_cons, hp]
      simp [hp, ih]

/-- With the inclusion set in range, the visible length is the inclusion
count. -/
lemma current_length_eq_card (impl : ValueTree IntValueTree Nat)
    (t : VecValueTree IntValueTree)
    (hsub : ∀ i ∈ t.included_elements, i < t.elements.length) :
    (t.current impl).length = t.included_elements.card := by
  rw [current_length impl t, range_filter_length_eq_card]
  have heq : (Finset.range t.elements.length).filter
      (fun i => decide (i ∈ t.included_elements) = true)
      = t.included_elements := by
    ext i
    simp only [Finset.mem_filter, Finset.mem_range, decide_eq_true_eq]
    exact ⟨fun h => h.2, fun h => ⟨hsub i h, h⟩⟩
  rw [heq]

/-! ### Step facts for the modelled integer tree and its scan behaviour -/

lemma intSimplify_stuck (e : IntValueTree) (h : e.curr ≤ e.lo) :
    IntImpl.simplify e = (false, e) := by
  simp [IntImpl, h]

lemma intSimplify_step (e : IntValueTree) (h : e.lo < e.curr) :
    IntImpl.simplify e =
      (true, { lo := e.lo, curr := e.curr - 1, prev := some e.curr }) := by
  simp [IntImpl, Nat.not_le_of_lt h]

lemma intSimplify_false_elim (e e2 : IntValueTree)
    (h : IntImpl.simplify e = (false, e2)) : e2 = e ∧ e.curr ≤ e.lo := by
  by_cases hc : e.curr ≤ e.lo
  · rw [intSimplify_stuck e hc] at h
    exact ⟨by simpa [eq_comm] using h, hc⟩
  · rw [intSimplify_step e (by omega)] at h
    simp at h

lemma intSimplify_true_elim (e e2 : IntValueTree)
    (h : IntImpl.simplify e = (true, e2)) :
    e2 = { lo := e.lo, curr := e.curr - 1, prev := some e.curr } ∧
      e.lo < e.curr := by
  by_cases hc : e.curr ≤ e.lo
  · rw [intSimplify_stuck e hc] at h
    simp at h
  · rw [intSimplify_step e (by omega)] at h
    exact ⟨by simpa [eq_comm] using h, by omega⟩

lemma intComplicate_prev (e : IntValueTree) (p : Nat) (h : e.prev = some p) :
    IntImpl.complicate e = (true, { lo := p, curr := p, prev := none }) := by
  simp [IntImpl, h]

lemma set_get_self : ∀ (l : List σ) (i : Nat) (h : i < l.length),
    l.set i (l.get ⟨i, h⟩) = l := by
  intro l
  induction l with
  | nil => intro i h; simp at h
  | cons a l ih =>
    intro i h
    rcases i with _ | i
    · rfl
    · simp only [List.length_cons] at h
      simp only [List.set_cons_succ, List.get_eq_getElem,
        List.getElem_cons_succ]
      rw [show l[i] = l.get ⟨i, by omega⟩ from rfl, ih i (by omega)]

lemma vec_ext (t1 t2 : VecValueTree σ) (h1 : t1.elements = t2.elements)
    (h2 : t1.included_elements = t2.included_elements)
    (h3 : t1.min_size = t2.min_size) (h4 : t1.shrink = t2.shrink)
    (h5 : t1.prev_shrink = t2.prev_shrink) : t1 = t2 := by
  cases t1
  cases t2
  simp only [VecValueTree.mk.injEq]
  exact ⟨h1, h2, h3, h4, h5⟩

/-- A `false` pass of the scan with the modelled integer elements leaves
the element list literally unchanged, and certifies that every included
index it visited is stuck. -/
lemma whileShrinkAux_false_int :
    ∀ gas (t t2 : VecValueTree IntValueTree) (ix : Nat),
    t.shrink = .ShrinkElement ix →
    whileShrinkAux IntImpl gas t = some (false, t2) →
    t2.elements = t.elements ∧
    (∀ k, ix ≤ k → k ∈ t.included_elements →
      ∀ hk : k < t.elements.length,
        (t.elements.get ⟨k, hk⟩).curr ≤ (t.elements.get ⟨k, hk⟩).lo) := by
  intro gas
  induction gas with
  | zero => intro t t2 ix _ hrun; simp [whileShrinkAux] at hrun
  | succ g ih =>
    intro t t2 ix hs hrun
    by_cases hlen : t.elements.length ≤ ix
    · rw [whileShrinkAux_out IntImpl g t ix hs hlen] at hrun
      obtain rfl : t = t2 := by simpa using hrun
      exact ⟨rfl, fun k hk1 _ hk2 => by omega⟩
    · have hlt : ix < t.elements.length := by omega
      by_cases hmem : ix ∈ t.included_elements
      · rcases he : IntImpl.simplify (t.elements.get ⟨ix, hlt⟩) with ⟨br, e⟩
        cases br with
        | true =>
          rw [whileShrinkAux_succ IntImpl g t ix e hs hlt hmem he] at hrun
          simp at hrun
        | false =>
          obtain ⟨rfl, hstuck⟩ :=
            intSimplify_false_elim (t.elements.get ⟨ix, hlt⟩) e he
          rw [whileShrinkAux_fail IntImpl g t ix _ hs hlt hmem he] at hrun
          rw [set_get_self t.elements ix hlt] at hrun
          obtain ⟨helems, hscan⟩ := ih _ t2 (ix + 1) rfl hrun
          refine ⟨by simpa using helems, ?_⟩
          intro k hk1 hkmem hk2
          by_cases hkix : k = ix
          · subst hkix
            exact hstuck
          · exact hscan k (by omega) (by simpa using hkmem) (by simpa using hk2)
      · rw [whileShrinkAux_skip IntImpl g t ix hs hlt hmem] at hrun
        obtain ⟨helems, hscan⟩ := ih _ t2 (ix + 1) rfl hrun
        refine ⟨by simpa using helems, ?_⟩
        intro k hk1 hkmem hk2
        by_cases hkix : k = ix
        · subst hkix
          exact absurd hkmem hmem
        · exact hscan k (by omega) (by simpa using hkmem) (by simpa using hk2)

/-- A `true` pass of the scan with the modelled integer elements: the
result is exactly the input with the first shrinkable included index `j`
at or after the cursor decremented (the cursor resting on `j`, the action
recorded), and every included index strictly between the cursor and `j` is
stuck. -/
lemma whileShrinkAux_true_int :
    ∀ gas (t t2 : VecValueTree IntValueTree) (ix : Nat),
    t.shrink = .ShrinkElement ix →
    whileShrinkAux IntImpl gas t = some (true, t2) →
    ∃ j, ∃ hj : j < t.elements.length,
      ix ≤ j ∧ j ∈ t.included_elements ∧
      (t.elements.get ⟨j, hj⟩).lo < (t.elements.get ⟨j, hj⟩).curr ∧
      t2 = { t with
        elements := t.elements.set j
          { lo := (t.elements.get ⟨j, hj⟩).lo,
            curr := (t.elements.get ⟨j, hj⟩).curr - 1,
            prev := some (t.elements.get ⟨j, hj⟩).curr },
        shrink := .ShrinkElement j,
        prev_shrink := some (.ShrinkElement j) } ∧
      (∀ k, ix ≤ k → k < j → k ∈ t.included_elements →
        ∀ hk : k < t.elements.length,
          (t.elements.get ⟨k, hk⟩).curr ≤ (t.elements.get ⟨k, hk⟩).lo) := by
  intro gas
  induction gas with
  | zero => intro t t2 ix _ hrun; simp [whileShrinkAux] at hrun
  | succ g ih =>
    intro t t2 ix hs hrun
    by_cases hlen : t.elements.length ≤ ix
    · rw [whileShrinkAux_out IntImpl g t ix hs hlen] at hrun
      simp at hrun
    · have hlt : ix < t.elements.length := by omega
      by_cases hmem : ix ∈ t.included_elements
      · rcases he : IntImpl.simplify (t.elements.get ⟨ix, hlt⟩) with ⟨br, e⟩
        cases br with
        | true =>
          rw [whileShrinkAux_succ IntImpl g t ix e hs hlt hmem he] at hrun
          obtain ⟨he2, hshr⟩ :=
            intSimplify_true_elim (t.elements.get ⟨ix, hlt⟩) e he
          subst he2
          refine ⟨ix, hlt, le_refl ix, hmem, hshr, ?_, ?_⟩
          · have ht2 : t2 = { t with
                elements := t.elements.set ix
                  { lo := (t.elements.get ⟨ix, hlt⟩).lo,
                    curr := (t.elements.get ⟨ix, hlt⟩).curr - 1,
                    prev := some (t.elements.get ⟨ix, hlt⟩).curr },
                prev_shrink := some (.ShrinkElement ix) } := by
              simpa [eq_comm] using hrun
            rw [ht2]
            exact vec_ext _ _ rfl rfl rfl hs rfl
          · intro k _ hk2 _ _
            omega
        | false =>
          obtain ⟨rfl, hstuck⟩ :=
            intSimplify_false_elim (t.elements.get ⟨ix, hlt⟩) e he
          rw [whileShrinkAux_fail IntImpl g t ix _ hs hlt hmem he] at hrun
          rw [set_get_self t.elements ix hlt] at hrun
          obtain ⟨j, hj, hjix, hjmem, hjshr, ht2, hscan⟩ :=
            ih _ t2 (ix + 1) rfl hrun
          refine ⟨j, by simpa using hj, by omega, by simpa using hjmem,
            by simpa using hjshr, ?_, ?_⟩
          · rw [ht2]
          · intro k hk1 hk2 hkmem hk
            by_cases hkix : k = ix
            · subst hkix
              exact hstuck
            · exact hscan k (by omega) hk2 (by simpa using hkmem)
                (by simpa using hk)
      · rw [whileShrinkAux_skip IntImpl g t ix hs hlt hmem] at hrun
        obtain ⟨j, hj, hjix, hjmem, hjshr, ht2, hscan⟩ :=
          ih _ t2 (ix + 1) rfl hrun
        refine ⟨j, by simpa using hj, by omega, by simpa using hjmem,
          by simpa using hjshr, ?_, ?_⟩
        · rw [ht2]
        · intro k hk1 hk2 hkmem hk
          by_cases hkix : k = ix
          · subst hkix
            exact absurd hkmem hmem
          · exact hscan k (by omega) hk2 (by simpa using hkmem)
              (by simpa using hk)

/-! ### Step shapes of the scenario's simplify/complicate calls -/

lemma sum_eq_length_of_all_one (L : List Nat) (h : ∀ x ∈ L, x = 1) :
    L.sum = L.length := by
  induction L with
  | nil => rfl
  | cons a L ih =>
    rw [List.sum_cons, List.length_cons, h a (List.mem_cons_self a L),
      ih (fun x hx => h x (List.mem_cons_of_mem a hx))]
    omega

lemma loSum_le_curSum (t : VecValueTree IntValueTree)
    (hEB : ∀ e ∈ t.elements, 1 ≤ e.lo ∧ e.lo ≤ e.curr) :
    loSum t ≤ curSum t := by
  unfold loSum curSum VecValueTree.current
  apply List.sum_le_sum
  intro p hp
  have hpf := List.mem_filter.mp hp
  obtain ⟨_, hidx, hget⟩ := mem_enumFrom_get t.elements 0 p hpf.1
  simp only [Nat.sub_zero] at hidx hget
  have hmem : p.2 ∈ t.elements := by
    rw [hget]
    exact List.get_mem t.elements _ _
  exact (hEB p.2 hmem).2

lemma loSum_eq_card_of_lo_one (t : VecValueTree IntValueTree)
    (hone : ∀ e ∈ t.elements, e.lo = 1)
    (hsub : ∀ i ∈ t.included_elements, i < t.elements.length) :
    loSum t = t.included_elements.card := by
  unfold loSum
  rw [sum_eq_length_of_all_one]
  · exact current_length_eq_card LoImpl t hsub
  · intro x hx
    obtain ⟨i, hi, _, hxi⟩ := mem_current LoImpl t x hx
    rw [hxi]
    exact hone _ (List.get_mem t.elements _ _)

lemma curLen_le_curSum (t : VecValueTree IntValueTree)
    (hEB : ∀ e ∈ t.elements, 1 ≤ e.lo ∧ e.lo ≤ e.curr) :
    (t.current IntImpl).length ≤ curSum t := by
  unfold curSum
  have h := sum_le_of_forall_le 1 (t.current IntImpl) ?_
  · omega
  · intro x hx
    obtain ⟨i, hi, _, hxi⟩ := mem_current IntImpl t x hx
    have := hEB _ (List.get_mem t.elements i hi)
    rw [hxi]
    show 1 ≤ (t.elements.get ⟨i, hi⟩).curr
    omega

lemma cur_nonempty_of_failing (t : VecValueTree IntValueTree)
    (h : 9 ≤ curSum t) : ∃ x, x ∈ t.current IntImpl := by
  rcases hc : t.current IntImpl with _ | ⟨a, L⟩
  · unfold curSum at h
    rw [hc] at h
    simp at h
  · exact ⟨a, by simp [hc]⟩

/-- Shape of a successful `simplify` from a `ShrinkElement` cursor with the
modelled integer elements. -/
lemma simplify_true_shrink_int (t t2 : VecValueTree IntValueTree) (s : Nat)
    (hs : t.shrink = .ShrinkElement s)
    (hrun : t.simplify IntImpl = some (true, t2)) :
    ∃ j, ∃ hj : j < t.elements.length,
      s ≤ j ∧ j ∈ t.included_elements ∧
      (t.elements.get ⟨j, hj⟩).lo < (t.elements.get ⟨j, hj⟩).curr ∧
      t2 = { t with
        elements := t.elements.set j
          { lo := (t.elements.get ⟨j, hj⟩).lo,
            curr := (t.elements.get ⟨j, hj⟩).curr - 1,
            prev := some (t.elements.get ⟨j, hj⟩).curr },
        shrink := .ShrinkElement j,
        prev_shrink := some (.ShrinkElement j) } ∧
      (∀ k, s ≤ k → k < j → k ∈ t.included_elements →
        ∀ hk : k < t.elements.length,
          (t.elements.get ⟨k, hk⟩).curr ≤ (t.elements.get ⟨k, hk⟩).lo) := by
  rw [simplify_of_shrink IntImpl t s hs] at hrun
  exact whileShrinkAux_true_int (t.elements.length + 1) t t2 s hs hrun

/-- Shape of a successful `simplify` from a `DeleteElement` cursor whose
guard stops the deletion phase: control falls to the scan at index 0. -/
lemma simplify_true_delete_guard_int (t t2 : VecValueTree IntValueTree)
    (d : Nat) (hs : t.shrink = .DeleteElement d)
    (hg : t.elements.length ≤ d ∨ t.included_elements.card = t.min_size)
    (hrun : t.simplify IntImpl = some (true, t2)) :
    ∃ j, ∃ hj : j < t.elements.length,
      j ∈ t.included_elements ∧
      (t.elements.get ⟨j, hj⟩).lo < (t.elements.get ⟨j, hj⟩).curr ∧
      t2 = { t with
        elements := t.elements.set j
          { lo := (t.elements.get ⟨j, hj⟩).lo,
            curr := (t.elements.get ⟨j, hj⟩).curr - 1,
            prev := some (t.elements.get ⟨j, hj⟩).curr },
        shrink := .ShrinkElement j,
        prev_shrink := some (.ShrinkElement j) } ∧
      (∀ k, k < j → k ∈ t.included_elements →
        ∀ hk : k < t.elements.length,
          (t.elements.get ⟨k, hk⟩).curr ≤ (t.elements.get ⟨k, hk⟩).lo) := by
  rw [simplify_of_delete IntImpl t d hs, if_pos hg] at hrun
  obtain ⟨j, hj, _, hjmem, hjshr, ht2, hscan⟩ :=
    whileShrinkAux_true_int (t.elements.length + 1)
      { t with shrink := .ShrinkElement 0 } t2 0 rfl hrun
  refine ⟨j, by simpa using hj, by simpa using hjmem, by simpa using hjshr,
    ?_, ?_⟩
  · rw [ht2]
  · intro k hk2 hkmem hk
    exact hscan k (by omega) hk2 (by simpa using hkmem) (by simpa using hk)

/-- Shape of a `false` result of `simplify` with the modelled integer
elements: nothing visible changes, every included index at or after the
scan start is stuck, and a `DeleteElement` cursor must have had its guard
hold. -/
lemma simplify_false_int (t t2 : VecValueTree IntValueTree)
    (hrun : t.simplify IntImpl = some (false, t2)) :
    t2.elements = t.elements ∧
    t2.included_elements = t.included_elements ∧
    (∀ d, t.shrink = .DeleteElement d →
      (t.elements.length ≤ d ∨ t.included_elements.card = t.min_size) ∧
      (∀ k, k ∈ t.included_elements → ∀ hk : k < t.elements.length,
        (t.elements.get ⟨k, hk⟩).curr ≤ (t.elements.get ⟨k, hk⟩).lo)) ∧
    (∀ s, t.shrink = .ShrinkElement s →
      (∀ k, s ≤ k → k ∈ t.included_elements → ∀ hk : k < t.elements.length,
        (t.elements.get ⟨k, hk⟩).curr ≤ (t.elements.get ⟨k, hk⟩).lo)) := by
  rcases hs : t.shrink with d | s
  · rw [simplify_of_delete IntImpl t d hs] at hrun
    by_cases hg : t.elements.length ≤ d ∨ t.included_elements.card = t.min_size
    · rw [if_pos hg] at hrun
      obtain ⟨helems, hscan⟩ :=
        whileShrinkAux_false_int (t.elements.length + 1)
          { t with shrink := .ShrinkElement 0 } t2 0 rfl hrun
      obtain ⟨hinc, _, _⟩ :=
        whileShrinkAux_preserves IntImpl (t.elements.length + 1)
          { t with shrink := .ShrinkElement 0 } 0 false t2 rfl hrun
      refine ⟨by simpa using helems, by simpa using hinc, ?_, ?_⟩
      · intro d2 hd2
        injection hd2 with hdd
        subst hdd
        refine ⟨hg, ?_⟩
        intro k hkmem hk
        exact hscan k (by omega) (by simpa using hkmem) (by simpa using hk)
      · intro s2 hs2
        exact Shrink.noConfusion hs2
    · rw [if_neg hg] at hrun
      simp at hrun
  · rw [simplify_of_shrink IntImpl t s hs] at hrun
    obtain ⟨helems, hscan⟩ :=
      whileShrinkAux_false_int (t.elements.length + 1) t t2 s hs hrun
    obtain ⟨hinc, _, _⟩ :=
      whileShrinkAux_preserves IntImpl (t.elements.length + 1) t s false t2
        hs hrun
    refine ⟨helems, hinc, ?_, ?_⟩
    · intro d2 hd2
      exact Shrink.noConfusion hd2
    · intro s2 hs2
      injection hs2 with hss
      subst hss
      exact fun k hk1 hkmem hk => hscan k hk1 hkmem hk

/-! ### Helper facts for the scenario invariant -/

lemma fails_true_iff (t : VecValueTree IntValueTree) :
    sumFails (t.current IntImpl) = true ↔ 9 ≤ curSum t := by
  simp [sumFails, curSum]

lemma fails_false_iff (t : VecValueTree IntValueTree) :
    sumFails (t.current IntImpl) = false ↔ curSum t < 9 := by
  simp [sumFails, curSum]

/-- `current` only reads the elements and the inclusion set. -/
lemma current_eta (impl : ValueTree σ α) (t1 t2 : VecValueTree σ)
    (h1 : t1.elements = t2.elements)
    (h2 : t1.included_elements = t2.included_elements) :
    t1.current impl = t2.current impl := by
  unfold VecValueTree.current
  rw [h1, h2]

lemma getq_set_self (l : List σ) (j : Nat) (a : σ) (h : j < l.length) :
    (l.set j a).get? j = some a := by
  rw [List.get?_eq_getElem?, List.getElem?_set_self']
  simp [List.getElem?_eq_getElem h]

lemma get_set_self_fin (l : List σ) (j : Nat) (a : σ)
    (h : j < (l.set j a).length) : (l.set j a).get ⟨j, h⟩ = a := by
  simp only [List.get_eq_getElem]
  exact List.getElem_set_self (by simpa using h)

lemma get_set_ne_fin (l : List σ) (j i : Nat) (a : σ) (hij : j ≠ i)
    (h : i < (l.set j a).length) :
    (l.set j a).get ⟨i, h⟩ = l.get ⟨i, by simpa using h⟩ := by
  simp only [List.get_eq_getElem]
  exact List.getElem_set_ne hij _

/-- Replacing one list entry replaces exactly its contribution to the sum
of a projection over the list. -/
lemma map_sum_set (f : σ → Nat) :
    ∀ (l : List σ) (j : Nat) (a : σ) (hj : j < l.length),
    ((l.set j a).map f).sum + f (l.get ⟨j, hj⟩) = (l.map f).sum + f a := by
  intro l
  induction l with
  | nil => intro j a hj; simp at hj
  | cons b l ih =>
    intro j a hj
    rcases j with _ | j
    · simp only [List.set_cons_zero, List.map_cons, List.sum_cons,
        List.get_eq_getElem, List.getElem_cons_zero]
      omega
    · simp only [List.length_cons] at hj
      have := ih j a (by omega)
      simp only [List.set_cons_succ, List.map_cons, List.sum_cons,
        List.get_eq_getElem, List.getElem_cons_succ]
      have hg : l[j] = l.get ⟨j, by omega⟩ := rfl
      rw [hg]
      omega

lemma prevW_le (o : Option Shrink) : prevW o ≤ 1 := by
  rcases o with _ | s
  · exact Nat.zero_le 1
  · rcases s with d | s
    · exact le_refl 1
    · exact Nat.zero_le 1

lemma measureM_delete (t : VecValueTree IntValueTree) (d : Nat)
    (hs : t.shrink = .DeleteElement d) :
    measureM t = 2 * t.elements.length + 3 +
      2 * (t.elements.length + 1 - min d (t.elements.length + 1)) +
      phi t + prevW t.prev_shrink := by
  simp only [measureM, hs, shrinkW]

lemma measureM_shrinkc (t : VecValueTree IntValueTree) (s : Nat)
    (hs : t.shrink = .ShrinkElement s) :
    measureM t = 2 * (t.elements.length + 1 -
      min s (t.elements.length + 1)) + phi t + prevW t.prev_shrink := by
  simp only [measureM, hs, shrinkW]

/-- `curSum` across a single element replacement, whatever the cursor and
recorded action become. -/
lemma curSum_set (t : VecValueTree IntValueTree) (j : Nat)
    (e2 : IntValueTree) (hj : j < t.elements.length)
    (hjmem : j ∈ t.included_elements) (S : Shrink) (P : Option Shrink) :
    curSum { t with
      elements := t.elements.set j e2,
      shrink := S,
      prev_shrink := P } + (t.elements.get ⟨j, hj⟩).curr
    = curSum t + e2.curr := by
  unfold curSum
  have he : VecValueTree.current IntImpl
      { t with
        elements := t.elements.set j e2,
        shrink := S,
        prev_shrink := P }
      = VecValueTree.current IntImpl
        { t with elements := t.elements.set j e2 } :=
    current_eta IntImpl _ _ rfl rfl
  rw [he]
  exact current_sum_set IntImpl t j e2 hj hjmem

/-- `loSum` across a single element replacement, whatever the cursor and
recorded action become. -/
lemma loSum_set (t : VecValueTree IntValueTree) (j : Nat)
    (e2 : IntValueTree) (hj : j < t.elements.length)
    (hjmem : j ∈ t.included_elements) (S : Shrink) (P : Option Shrink) :
    loSum { t with
      elements := t.elements.set j e2,
      shrink := S,
      prev_shrink := P } + (t.elements.get ⟨j, hj⟩).lo
    = loSum t + e2.lo := by
  unfold loSum
  have he : VecValueTree.current LoImpl
      { t with
        elements := t.elements.set j e2,
        shrink := S,
        prev_shrink := P }
      = VecValueTree.current LoImpl
        { t with elements := t.elements.set j e2 } :=
    current_eta LoImpl _ _ rfl rfl
  rw [he]
  exact current_sum_set LoImpl t j e2 hj hjmem

/-- After a successful element-shrink step (the first shrinkable included
index `j` at or after the cursor decremented, cursor and recorded action
set to `j`), the scenario invariant holds again, given an inclusion count
already at most 9 and the `lo`-sum condition at the starting state. -/
lemma scenario_shrink_post (t : VecValueTree IntValueTree) (j : Nat)
    (e2 : IntValueTree) (hj : j < t.elements.length)
    (hjmem : j ∈ t.included_elements)
    (he2lo : e2.lo = (t.elements.get ⟨j, hj⟩).lo)
    (he2curr : e2.curr = (t.elements.get ⟨j, hj⟩).curr - 1)
    (hjshr : (t.elements.get ⟨j, hj⟩).lo < (t.elements.get ⟨j, hj⟩).curr)
    (hmin : t.min_size = 5)
    (hsub : ∀ i ∈ t.included_elements, i < t.elements.length)
    (hEB : ∀ e ∈ t.elements, 1 ≤ e.lo ∧ e.lo ≤ e.curr)
    (hcard9 : t.included_elements.card ≤ 9)
    (hWsrc : loSum t ≤ 9 ∨ ∀ e ∈ t.elements, e.lo = 1)
    (hstuck : ∀ i ∈ t.included_elements, i < j → ∀ hi : i < t.elements.length,
      (t.elements.get ⟨i, hi⟩).curr = (t.elements.get ⟨i, hi⟩).lo)
    (hInv2 : Inv { t with
      elements := t.elements.set j e2,
      shrink := .ShrinkElement j,
      prev_shrink := some (.ShrinkElement j) }) :
    ScenarioInv { t with
      elements := t.elements.set j e2,
      shrink := .ShrinkElement j,
      prev_shrink := some (.ShrinkElement j) } := by
  have hEBj := hEB (t.elements.get ⟨j, hj⟩) (List.get_mem t.elements j hj)
  refine ⟨hInv2, hmin, ?_, ?_, ?_, ?_, ?_, ?_, ?_⟩
  · intro i hi
    simpa [List.length_set] using hsub i hi
  · intro e he
    rcases List.mem_or_eq_of_mem_set he with h | h
    · exact hEB e h
    · subst h
      constructor
      · rw [he2lo]
        exact hEBj.1
      · rw [he2lo, he2curr]
        omega
  · intro d hd
    exact Shrink.noConfusion hd
  · intro d hd
    exact Shrink.noConfusion hd
  · intro s _
    exact hcard9
  · intro s _
    rcases hWsrc with h9 | hall
    · left
      have hls := loSum_set t j e2 hj hjmem (.ShrinkElement j)
        (some (.ShrinkElement j))
      rw [he2lo] at hls
      omega
    · right
      intro e he
      rcases List.mem_or_eq_of_mem_set he with h | h
      · exact hall e h
      · subst h
        rw [he2lo]
        exact hall _ (List.get_mem t.elements j hj)
  · intro s hs i hi his hilen
    have hs' : Shrink.ShrinkElement j = Shrink.ShrinkElement s := hs
    injection hs' with hjs
    subst hjs
    rw [get_set_ne_fin t.elements j i e2 (by omega) hilen]
    exact hstuck i hi his _

/-- Collapsing a nested record update: replacing the element list of an
update of `t` is one update of `t`, and two `set`s at the same index keep
the last. -/
lemma with_set_collapse (t : VecValueTree IntValueTree)
    (e2 e3 : IntValueTree) (j : Nat) (S : Shrink) (P : Option Shrink) :
    ({ { t with
       elements := t.elements.set j e2,
       shrink := S,
       prev_shrink := P } with
     elements := ({ t with
       elements := t.elements.set j e2,
       shrink := S,
       prev_shrink := P } : VecValueTree IntValueTree).elements.set j e3 }
      : VecValueTree IntValueTree)
    = { t with
        elements := t.elements.set j e3,
        shrink := S,
        prev_shrink := P } := by
  refine vec_ext _ _ ?_ rfl rfl rfl rfl
  exact List.set_set _ _ _ _

/-- Undoing a just-performed element shrink when the shrunk value made the
test pass: `complicate` restores the previous value while ruling the
smaller values out, the result fails again, satisfies the scenario
invariant, and its measure is strictly below the pre-shrink cursor weight
at `j` plus the pre-shrink slack. -/
lemma scenario_shrink_undo (t : VecValueTree IntValueTree) (j : Nat)
    (e2 e3 : IntValueTree) (hj : j < t.elements.length)
    (hjmem : j ∈ t.included_elements)
    (he2lo : e2.lo = (t.elements.get ⟨j, hj⟩).lo)
    (he2curr : e2.curr = (t.elements.get ⟨j, hj⟩).curr - 1)
    (he2prev : e2.prev = some (t.elements.get ⟨j, hj⟩).curr)
    (he3 : e3 = { lo := (t.elements.get ⟨j, hj⟩).curr,
                  curr := (t.elements.get ⟨j, hj⟩).curr,
                  prev := none })
    (hjshr : (t.elements.get ⟨j, hj⟩).lo < (t.elements.get ⟨j, hj⟩).curr)
    (hmin : t.min_size = 5)
    (hsub : ∀ i ∈ t.included_elements, i < t.elements.length)
    (hEB : ∀ e ∈ t.elements, 1 ≤ e.lo ∧ e.lo ≤ e.curr)
    (hcard9 : t.included_elements.card ≤ 9)
    (hstuck : ∀ i ∈ t.included_elements, i < j → ∀ hi : i < t.elements.length,
      (t.elements.get ⟨i, hi⟩).curr = (t.elements.get ⟨i, hi⟩).lo)
    (hfail : 9 ≤ curSum t)
    (hInv2 : Inv { t with
      elements := t.elements.set j e2,
      shrink := .ShrinkElement j,
      prev_shrink := some (.ShrinkElement j) })
    (hpass : curSum { t with
      elements := t.elements.set j e2,
      shrink := .ShrinkElement j,
      prev_shrink := some (.ShrinkElement j) } < 9) :
    ∃ t3,
      VecValueTree.complicate IntImpl { t with
        elements := t.elements.set j e2,
        shrink := .ShrinkElement j,
        prev_shrink := some (.ShrinkElement j) } = some (true, t3) ∧
      ScenarioInv t3 ∧ 9 ≤ curSum t3 ∧
      measureM t3 + 1 ≤
        2 * (t.elements.length + 1 - min j (t.elements.length + 1)) +
          phi t := by
  have hEBj := hEB (t.elements.get ⟨j, hj⟩) (List.get_mem t.elements j hj)
  have hget2 : (t.elements.set j e2).get? j = some e2 :=
    getq_set_self t.elements j e2 hj
  have hcomp : IntImpl.complicate e2 = (true, e3) := by
    rw [he3]
    exact intComplicate_prev e2 _ he2prev
  have hrun3 := complicate_shrink_true IntImpl
    { t with
      elements := t.elements.set j e2,
      shrink := .ShrinkElement j,
      prev_shrink := some (.ShrinkElement j) } j e2 e3 rfl hget2 hcomp
  rw [with_set_collapse t e2 e3 j (.ShrinkElement j)
    (some (.ShrinkElement j))] at hrun3
  have hcs2 := curSum_set t j e2 hj hjmem (.ShrinkElement j)
    (some (.ShrinkElement j))
  have hcs3 := curSum_set t j e3 hj hjmem (.ShrinkElement j)
    (some (.ShrinkElement j))
  rw [he2curr] at hcs2
  have he3curr : e3.curr = (t.elements.get ⟨j, hj⟩).curr := by rw [he3]
  have he3lo : e3.lo = (t.elements.get ⟨j, hj⟩).curr := by rw [he3]
  have hEB3 : ∀ e ∈ t.elements.set j e3, 1 ≤ e.lo ∧ e.lo ≤ e.curr := by
    intro e he
    rcases List.mem_or_eq_of_mem_set he with h | h
    · exact hEB e h
    · subst h
      rw [he3]
      constructor
      · show 1 ≤ (t.elements.get ⟨j, hj⟩).curr
        omega
      · exact le_refl _
  have hInv3 := inv_complicate IntImpl _ _ true hInv2 hrun3
  refine ⟨_, hrun3, ⟨hInv3, hmin, ?_, hEB3, ?_, ?_, ?_, ?_, ?_⟩, ?_, ?_⟩
  · intro i hi
    simpa [List.length_set] using hsub i hi
  · intro d hd
    exact Shrink.noConfusion hd
  · intro d hd
    exact Shrink.noConfusion hd
  · intro s _
    exact hcard9
  · intro s _
    left
    have hls := loSum_le_curSum { t with
      elements := t.elements.set j e3,
      shrink := .ShrinkElement j,
      prev_shrink := some (.ShrinkElement j) } hEB3
    omega
  · intro s hs i hi his hilen
    have hs2 : Shrink.ShrinkElement j = Shrink.ShrinkElement s := hs
    injection hs2 with hjs
    subst hjs
    rw [get_set_ne_fin t.elements j i e3 (by omega) hilen]
    exact hstuck i hi his _
  · omega
  · have hpw : prevW (some (.ShrinkElement j)) = 0 := rfl
    have hphi : phi { t with
        elements := t.elements.set j e3,
        shrink := .ShrinkElement j,
        prev_shrink := some (.ShrinkElement j) }
        + ((t.elements.get ⟨j, hj⟩).curr - (t.elements.get ⟨j, hj⟩).lo)
        = phi t := by
      have h := map_sum_set (fun e => e.curr - e.lo) t.elements j e3 hj
      simp only [phi]
      omega
    rw [measureM_shrinkc _ j rfl, hpw]
    simp only [List.length_set]
    omega

/-- `phi` across a single element replacement. -/
lemma phi_set (t : VecValueTree IntValueTree) (j : Nat) (e2 : IntValueTree)
    (hj : j < t.elements.length) (S : Shrink) (P : Option Shrink) :
    phi { t with
      elements := t.elements.set j e2,
      shrink := S,
      prev_shrink := P }
      + ((t.elements.get ⟨j, hj⟩).curr - (t.elements.get ⟨j, hj⟩).lo)
    = phi t + (e2.curr - e2.lo) := by
  have h := map_sum_set (fun e => e.curr - e.lo) t.elements j e2 hj
  simp only [phi]
  exact h

/-- Collapsing a nested record update that re-inserts a deleted index. -/
lemma with_insert_collapse (t : VecValueTree IntValueTree) (A : Finset ℕ)
    (d : Nat) (S : Shrink) (P : Option Shrink) :
    ({ { t with
       included_elements := A,
       shrink := S,
       prev_shrink := P } with
     included_elements := insert d ({ t with
       included_elements := A,
       shrink := S,
       prev_shrink := P } : VecValueTree IntValueTree).included_elements,
     prev_shrink := none } : VecValueTree IntValueTree)
    = { t with
        included_elements := insert d A,
        shrink := S,
        prev_shrink := none } := rfl

/-- When the deletion-phase guard stops deletion on a failing state, at
most 9 indices are still included: either the inclusion count already hit
the floor 5, or every deletion was tried, so each surviving element's
value is within 8 of the failing sum. -/
lemma scenario_card_le_nine (t : VecValueTree IntValueTree) (d : Nat)
    (hg : t.elements.length ≤ d ∨ t.included_elements.card = t.min_size)
    (hmin : t.min_size = 5)
    (hsub : ∀ i ∈ t.included_elements, i < t.elements.length)
    (hU : ∀ i ∈ t.included_elements, i < d → ∀ hi : i < t.elements.length,
      curSum t ≤ (t.elements.get ⟨i, hi⟩).curr + 8)
    (hfail : 9 ≤ curSum t) :
    t.included_elements.card ≤ 9 := by
  rcases hg with hLd | hc5
  · have hlow : ∀ x ∈ t.current IntImpl, curSum t - 8 ≤ x := by
      intro x hx
      obtain ⟨i, hi, him, hxi⟩ := mem_current IntImpl t x hx
      have := hU i him (by omega) hi
      rw [hxi]
      show curSum t - 8 ≤ (t.elements.get ⟨i, hi⟩).curr
      omega
    have hsum := sum_le_of_forall_le (curSum t - 8) (t.current IntImpl) hlow
    have hlen := current_length_eq_card IntImpl t hsub
    rw [hlen] at hsum
    have hS : (t.current IntImpl).sum = curSum t := rfl
    rw [hS] at hsum
    by_contra hc
    push_neg at hc
    have h10 : 10 * (curSum t - 8)
        ≤ t.included_elements.card * (curSum t - 8) :=
      Nat.mul_le_mul_right _ (by omega)
    have := le_trans h10 hsum
    omega
  · rw [hc5, hmin]
    omega

/-- One `simplify` step of the modelled loop from a failing state
satisfying the scenario invariant: the invariant holds again at the result
with a strictly smaller measure, and if the result makes the test pass,
the pending `complicate` undoes the step into a failing invariant state,
still of strictly smaller measure. -/
lemma scenario_step (t t2 : VecValueTree IntValueTree)
    (hSI : ScenarioInv t) (hfail : 9 ≤ curSum t)
    (hrun : t.simplify IntImpl = some (true, t2)) :
    ScenarioInv t2 ∧ measureM t2 < measureM t ∧
    (curSum t2 < 9 →
      ∃ t3, VecValueTree.complicate IntImpl t2 = some (true, t3) ∧
        ScenarioInv t3 ∧ 9 ≤ curSum t3 ∧ measureM t3 < measureM t) := by
  obtain ⟨hInv, hmin, hsub, hEB, hG, hU, hK, hW, hI⟩ := hSI
  have hInv2 := inv_simplify IntImpl t t2 true hInv hrun
  have hm1p := prevW_le t.prev_shrink
  rcases hs : t.shrink with d | s
  · by_cases hg : t.elements.length ≤ d ∨ t.included_elements.card = t.min_size
    · obtain ⟨j, hj, hjmem, hjshr, ht2, hscan⟩ :=
        simplify_true_delete_guard_int t t2 d hs hg hrun
      have hstuckj : ∀ i ∈ t.included_elements, i < j →
          ∀ hi : i < t.elements.length,
          (t.elements.get ⟨i, hi⟩).curr = (t.elements.get ⟨i, hi⟩).lo := by
        intro i hi hij hilen
        have h1 := hscan i hij hi hilen
        have h2 := (hEB _ (List.get_mem t.elements i hilen)).2
        omega
      have hcard9 := scenario_card_le_nine t d hg hmin hsub (hU d hs) hfail
      have hall1 := hG d hs
      subst ht2
      refine ⟨scenario_shrink_post t j _ hj hjmem rfl rfl hjshr hmin hsub hEB
        hcard9 (Or.inr hall1) hstuckj hInv2, ?_, ?_⟩
      · rw [measureM_shrinkc _ j rfl, measureM_delete t d hs]
        have hphi := phi_set t j
          { lo := (t.elements.get ⟨j, hj⟩).lo,
            curr := (t.elements.get ⟨j, hj⟩).curr - 1,
            prev := some (t.elements.get ⟨j, hj⟩).curr } hj
          (.ShrinkElement j) (some (.ShrinkElement j))
        dsimp only at hphi
        have hpw : prevW (some (Shrink.ShrinkElement j)) = 0 := rfl
        simp only [List.length_set, hpw]
        omega
      · intro hpass
        obtain ⟨t3, hc3, hsi3, hf3, hm3⟩ := scenario_shrink_undo t j
          { lo := (t.elements.get ⟨j, hj⟩).lo,
            curr := (t.elements.get ⟨j, hj⟩).curr - 1,
            prev := some (t.elements.get ⟨j, hj⟩).curr } _ hj hjmem
          rfl rfl rfl rfl hjshr hmin hsub hEB hcard9 hstuckj hfail hInv2 hpass
        refine ⟨t3, hc3, hsi3, hf3, ?_⟩
        rw [measureM_delete t d hs]
        omega
    · push_neg at hg
      obtain ⟨hdlen, hcard5⟩ := hg
      rw [simplify_delete IntImpl t d hs hdlen hcard5] at hrun
      obtain rfl : t2 = { t with
          included_elements := t.included_elements.erase d,
          prev_shrink := some (.DeleteElement d),
          shrink := .DeleteElement (d + 1) } := by
        simpa [eq_comm] using hrun
      have hd_mem : d ∈ t.included_elements := hInv.2.1 d d hs (le_refl d) hdlen
      have hcs := curSum_erase t d hdlen hd_mem
      refine ⟨⟨hInv2, hmin, ?_, hEB, ?_, ?_, ?_, ?_, ?_⟩, ?_, ?_⟩
      · intro i hi
        exact hsub i (Finset.mem_of_mem_erase hi)
      · intro d2 _
        exact hG d hs
      · intro d2 hd2 i hi hid hilen
        have hd2e : Shrink.DeleteElement (d + 1) = .DeleteElement d2 := hd2
        injection hd2e with hde
        subst hde
        obtain ⟨hne, hiA⟩ := Finset.mem_erase.mp hi
        refine le_trans ?_ (hU d hs i hiA (by omega) hilen)
        omega
      · intro s2 hs2
        exact Shrink.noConfusion hs2
      · intro s2 hs2
        exact Shrink.noConfusion hs2
      · intro s2 hs2
        exact Shrink.noConfusion hs2
      · rw [measureM_delete _ (d + 1) rfl, measureM_delete t d hs]
        have hph : phi { t with
            included_elements := t.included_elements.erase d,
            prev_shrink := some (.DeleteElement d),
            shrink := .DeleteElement (d + 1) } = phi t := rfl
        have hpw : prevW (some (Shrink.DeleteElement d)) = 1 := rfl
        simp only [hph, hpw]
        omega
      · intro hpass
        have hrc := complicate_of_delete IntImpl { t with
          included_elements := t.included_elements.erase d,
          prev_shrink := some (.DeleteElement d),
          shrink := .DeleteElement (d + 1) } d rfl
        rw [with_insert_collapse] at hrc
        have hins : insert d (t.included_elements.erase d)
            = t.included_elements := Finset.insert_erase hd_mem
        have hIns3 := inv_complicate IntImpl _ _ true hInv2 hrc
        have hcur3 : VecValueTree.current IntImpl { t with
            included_elements := insert d (t.included_elements.erase d),
            shrink := .DeleteElement (d + 1),
            prev_shrink := none } = t.current IntImpl :=
          current_eta IntImpl _ t rfl hins
        have hcs3 : curSum { t with
            included_elements := insert d (t.included_elements.erase d),
            shrink := .DeleteElement (d + 1),
            prev_shrink := none } = curSum t := by
          unfold curSum
          rw [hcur3]
        refine ⟨_, hrc, ⟨hIns3, hmin, ?_, hEB, ?_, ?_, ?_, ?_, ?_⟩, ?_, ?_⟩
        · intro i hi
          rw [hins] at hi
          exact hsub i hi
        · intro d2 _
          exact hG d hs
        · intro d2 hd2 i hi hid hilen
          have hd2e : Shrink.DeleteElement (d + 1) = .DeleteElement d2 := hd2
          injection hd2e with hde
          subst hde
          rw [hins] at hi
          by_cases hident : i = d
          · subst hident
            rw [hcs3]
            show curSum t ≤ (t.elements.get ⟨i, hdlen⟩).curr + 8
            omega
          · refine le_trans ?_ (hU d hs i hi (by omega) hilen)
            omega
        · intro s2 hs2
          exact Shrink.noConfusion hs2
        · intro s2 hs2
          exact Shrink.noConfusion hs2
        · intro s2 hs2
          exact Shrink.noConfusion hs2
        · rw [hcs3]
          exact hfail
        · rw [measureM_delete _ (d + 1) rfl, measureM_delete t d hs]
          have hph : phi { t with
              included_elements := insert d (t.included_elements.erase d),
              shrink := .DeleteElement (d + 1),
              prev_shrink := none } = phi t := rfl
          have hpw : prevW (none : Option Shrink) = 0 := rfl
          simp only [hph, hpw]
          omega
  · obtain ⟨j, hj, hsj, hjmem, hjshr, ht2, hscan⟩ :=
      simplify_true_shrink_int t t2 s hs hrun
    have hstuckj : ∀ i ∈ t.included_elements, i < j →
        ∀ hi : i < t.elements.length,
        (t.elements.get ⟨i, hi⟩).curr = (t.elements.get ⟨i, hi⟩).lo := by
      intro i hi hij hilen
      by_cases his : i < s
      · exact hI s hs i hi his hilen
      · have h1 := hscan i (by omega) hij hi hilen
        have h2 := (hEB _ (List.get_mem t.elements i hilen)).2
        omega
    have hcard9 := hK s hs
    subst ht2
    refine ⟨scenario_shrink_post t j _ hj hjmem rfl rfl hjshr hmin hsub hEB
      hcard9 (hW s hs) hstuckj hInv2, ?_, ?_⟩
    · rw [measureM_shrinkc _ j rfl, measureM_shrinkc t s hs]
      have hphi := phi_set t j
        { lo := (t.elements.get ⟨j, hj⟩).lo,
          curr := (t.elements.get ⟨j, hj⟩).curr - 1,
          prev := some (t.elements.get ⟨j, hj⟩).curr } hj
        (.ShrinkElement j) (some (.ShrinkElement j))
      dsimp only at hphi
      have hpw : prevW (some (Shrink.ShrinkElement j)) = 0 := rfl
      simp only [List.length_set, hpw]
      omega
    · intro hpass
      obtain ⟨t3, hc3, hsi3, hf3, hm3⟩ := scenario_shrink_undo t j
        { lo := (t.elements.get ⟨j, hj⟩).lo,
          curr := (t.elements.get ⟨j, hj⟩).curr - 1,
          prev := some (t.elements.get ⟨j, hj⟩).curr } _ hj hjmem
        rfl rfl rfl rfl hjshr hmin hsub hEB hcard9 hstuckj hfail hInv2 hpass
      refine ⟨t3, hc3, hsi3, hf3, ?_⟩
      rw [measureM_shrinkc t s hs]
      omega

/-- When `simplify` reports no change on a failing state satisfying the
scenario invariant, the visible value has between 5 and 9 elements and
sums to exactly the boundary 9. -/
lemma scenario_exit (t t2 : VecValueTree IntValueTree)
    (hSI : ScenarioInv t) (hfail : 9 ≤ curSum t)
    (hrun : t.simplify IntImpl = some (false, t2)) :
    5 ≤ (t2.current IntImpl).length ∧ (t2.current IntImpl).length ≤ 9 ∧
      (t2.current IntImpl).sum = 9 := by
  obtain ⟨hInv, hmin, hsub, hEB, hG, hU, hK, hW, hI⟩ := hSI
  obtain ⟨helems, hinc, hdel, hshr⟩ := simplify_false_int t t2 hrun
  have hcur : t2.current IntImpl = t.current IntImpl :=
    current_eta IntImpl t2 t helems hinc
  have hmain : curSum t = 9 ∧ t.included_elements.card ≤ 9 := by
    rcases hsc : t.shrink with d | s
    · obtain ⟨hgd, hstuck⟩ := hdel d hsc
      have hstuck2 : ∀ i ∈ t.included_elements,
          ∀ hi : i < t.elements.length,
          (t.elements.get ⟨i, hi⟩).curr = (t.elements.get ⟨i, hi⟩).lo := by
        intro i hi hilen
        have h1 := hstuck i hi hilen
        have h2 := (hEB _ (List.get_mem t.elements i hilen)).2
        omega
      have hcl := curSum_eq_loSum t hstuck2
      have hlo := loSum_eq_card_of_lo_one t (hG d hsc) hsub
      rcases hgd with hLd | hc5
      · have hpos : 0 < t.included_elements.card := by
          have := hInv.1
          omega
        obtain ⟨i, hi⟩ := Finset.card_pos.mp hpos
        have hilen := hsub i hi
        have hui := hU d hsc i hi (by omega) hilen
        have hli : (t.elements.get ⟨i, hilen⟩).lo = 1 :=
          hG d hsc _ (List.get_mem t.elements i hilen)
        have hci := hstuck2 i hi hilen
        omega
      · exfalso
        have := hInv.1
        omega
    · have hstuckhi := hshr s hsc
      have hstuck2 : ∀ i ∈ t.included_elements,
          ∀ hi : i < t.elements.length,
          (t.elements.get ⟨i, hi⟩).curr = (t.elements.get ⟨i, hi⟩).lo := by
        intro i hi hilen
        by_cases his : i < s
        · exact hI s hsc i hi his hilen
        · have h1 := hstuckhi i (by omega) hi hilen
          have h2 := (hEB _ (List.get_mem t.elements i hilen)).2
          omega
      have hcl := curSum_eq_loSum t hstuck2
      have hcard9 := hK s hsc
      rcases hW s hsc with h9 | hall
      · omega
      · have hlo := loSum_eq_card_of_lo_one t hall hsub
        omega
  have hlen2 : (t2.current IntImpl).length = t.included_elements.card := by
    rw [hcur]
    exact current_length_eq_card IntImpl t hsub
  have hsum2 : (t2.current IntImpl).sum = curSum t := by
    rw [hcur]
    rfl
  have hcard5 : 5 ≤ t.included_elements.card := by
    have := hInv.1
    omega
  exact ⟨by omega, by omega, by omega⟩

/-! ### The modelled shrink loop: step equations and monotonicity -/

lemma shrinkLoop_zero (impl : ValueTree σ α) (fails : List α → Bool)
    (t : VecValueTree σ) : shrinkLoop impl fails 0 t = none := rfl

lemma shrinkLoop_succ (impl : ValueTree σ α) (fails : List α → Bool)
    (fuel : Nat) (t : VecValueTree σ) :
    shrinkLoop impl fails (fuel + 1) t =
      if fails (t.current impl) then
        match t.simplify impl with
        | none => none
        | some (true, t2) => shrinkLoop impl fails fuel t2
        | some (false, t2) => some t2
      else
        match t.complicate impl with
        | none => none
        | some (true, t2) => shrinkLoop impl fails fuel t2
        | some (false, t2) => some t2 := rfl

lemma shrinkLoop_simplify_true (impl : ValueTree σ α)
    (fails : List α → Bool) (fuel : Nat) (t t2 : VecValueTree σ)
    (hf : fails (t.current impl) = true)
    (hsim : t.simplify impl = some (true, t2)) :
    shrinkLoop impl fails (fuel + 1) t = shrinkLoop impl fails fuel t2 := by
  rw [shrinkLoop_succ, if_pos hf, hsim]

lemma shrinkLoop_simplify_false (impl : ValueTree σ α)
    (fails : List α → Bool) (fuel : Nat) (t t2 : VecValueTree σ)
    (hf : fails (t.current impl) = true)
    (hsim : t.simplify impl = some (false, t2)) :
    shrinkLoop impl fails (fuel + 1) t = some t2 := by
  rw [shrinkLoop_succ, if_pos hf, hsim]

lemma shrinkLoop_complicate_true (impl : ValueTree σ α)
    (fails : List α → Bool) (fuel : Nat) (t t2 : VecValueTree σ)
    (hf : fails (t.current impl) = false)
    (hcom : t.complicate impl = some (true, t2)) :
    shrinkLoop impl fails (fuel + 1) t = shrinkLoop impl fails fuel t2 := by
  rw [shrinkLoop_succ, if_neg (by simp [hf]), hcom]

/-- More fuel never changes a run that already finished. -/
lemma shrinkLoop_mono (impl : ValueTree σ α) (fails : List α → Bool) :
    ∀ f1 f2 (t tf : VecValueTree σ), f1 ≤ f2 →
      shrinkLoop impl fails f1 t = some tf →
      shrinkLoop impl fails f2 t = some tf := by
  intro f1
  induction f1 with
  | zero =>
    intro f2 t tf _ h
    exact absurd h (by simp [shrinkLoop])
  | succ f ih =>
    intro f2 t tf hle h
    rcases f2 with _ | f2
    · omega
    rw [shrinkLoop_succ] at h ⊢
    by_cases hf : fails (t.current impl) = true
    · rw [if_pos hf] at h ⊢
      rcases hsim : t.simplify impl with _ | ⟨b, t2⟩
      · rw [hsim] at h
        simp at h
      · rw [hsim] at h
        cases b
        · exact h
        · exact ih f2 t2 tf (by omega) h
    · rw [if_neg hf] at h ⊢
      rcases hcom : t.complicate impl with _ | ⟨b, t2⟩
      · rw [hcom] at h
        simp at h
      · rw [hcom] at h
        cases b
        · exact h
        · exact ih f2 t2 tf (by omega) h

/-- Partial correctness of the modelled shrink loop on the concrete
scenario: whenever the loop finishes from a failing state satisfying the
scenario invariant, the reported minimal value has between 5 and 9
elements and sums to exactly 9. -/
lemma scenario_run :
    ∀ fuel (t tf : VecValueTree IntValueTree), ScenarioInv t →
    9 ≤ curSum t →
    shrinkLoop IntImpl sumFails fuel t = some tf →
    5 ≤ (tf.current IntImpl).length ∧ (tf.current IntImpl).length ≤ 9 ∧
      (tf.current IntImpl).sum = 9 := by
  intro fuel
  induction fuel with
  | zero =>
    intro t tf _ _ h
    exact absurd h (by simp [shrinkLoop])
  | succ fuel ih =>
    intro t tf hSI hfail hloop
    have hiss := simplify_isSome IntImpl t
    rcases hsim : t.simplify IntImpl with _ | ⟨b, t2⟩
    · rw [hsim] at hiss
      simp at hiss
    cases b with
    | false =>
      rw [shrinkLoop_simplify_false IntImpl sumFails fuel t t2
        ((fails_true_iff t).mpr hfail) hsim] at hloop
      obtain rfl : t2 = tf := by simpa using hloop
      exact scenario_exit t t2 hSI hfail hsim
    | true =>
      obtain ⟨hSI2, _, hcomp⟩ := scenario_step t t2 hSI hfail hsim
      rw [shrinkLoop_simplify_true IntImpl sumFails fuel t t2
        ((fails_true_iff t).mpr hfail) hsim] at hloop
      by_cases hf2 : 9 ≤ curSum t2
      · exact ih t2 tf hSI2 hf2 hloop
      · obtain ⟨t3, hc3, hSI3, hf3, _⟩ := hcomp (by omega)
        rcases fuel with _ | f
        · exact absurd hloop (by simp [shrinkLoop])
        rw [shrinkLoop_complicate_true IntImpl sumFails f t2 t3
          ((fails_false_iff t2).mpr (by omega)) hc3] at hloop
        exact ih t3 tf hSI3 hf3
          (shrinkLoop_mono IntImpl sumFails f (f + 1) t3 tf (by omega) hloop)

/-- Termination of the modelled shrink loop on the concrete scenario:
from any failing state satisfying the scenario invariant, some fuel
suffices for the loop to finish. -/
lemma scenario_terminates :
    ∀ n (t : VecValueTree IntValueTree), measureM t ≤ n → ScenarioInv t →
    9 ≤ curSum t →
    ∃ fuel tf, shrinkLoop IntImpl sumFails fuel t = some tf := by
  intro n
  induction n with
  | zero =>
    intro t hm hSI hfail
    have hiss := simplify_isSome IntImpl t
    rcases hsim : t.simplify IntImpl with _ | ⟨b, t2⟩
    · rw [hsim] at hiss
      simp at hiss
    cases b with
    | false =>
      exact ⟨1, t2, shrinkLoop_simplify_false IntImpl sumFails 0 t t2
        ((fails_true_iff t).mpr hfail) hsim⟩
    | true =>
      obtain ⟨_, hm2, _⟩ := scenario_step t t2 hSI hfail hsim
      omega
  | succ n ih =>
    intro t hm hSI hfail
    have hiss := simplify_isSome IntImpl t
    rcases hsim : t.simplify IntImpl with _ | ⟨b, t2⟩
    · rw [hsim] at hiss
      simp at hiss
    cases b with
    | false =>
      exact ⟨1, t2, shrinkLoop_simplify_false IntImpl sumFails 0 t t2
        ((fails_true_iff t).mpr hfail) hsim⟩
    | true =>
      obtain ⟨hSI2, hm2, hcomp⟩ := scenario_step t t2 hSI hfail hsim
      by_cases hf2 : 9 ≤ curSum t2
      · obtain ⟨fuel, tf, hloop⟩ := ih t2 (by omega) hSI2 hf2
        refine ⟨fuel + 1, tf, ?_⟩
        rw [shrinkLoop_simplify_true IntImpl sumFails fuel t t2
          ((fails_true_iff t).mpr hfail) hsim]
        exact hloop
      · obtain ⟨t3, hc3, hSI3, hf3, hm3⟩ := hcomp (by omega)
        obtain ⟨fuel, tf, hloop⟩ := ih t3 (by omega) hSI3 hf3
        refine ⟨fuel + 2, tf, ?_⟩
        rw [shrinkLoop_simplify_true IntImpl sumFails (fuel + 1) t t2
          ((fails_true_iff t).mpr hfail) hsim]
        rw [shrinkLoop_complicate_true IntImpl sumFails fuel t2 t3
          ((fails_false_iff t2).mpr (by omega)) hc3]
        exact hloop

/-- The tree `new_tree` produces for the concrete scenario satisfies the
scenario invariant. -/
lemma scenario_initial (vals : List Nat) (hlen5 : 5 ≤ vals.length)
    (hvals : ∀ v ∈ vals, 1 ≤ v) :
    ScenarioInv (mkInitialTree vals 5) := by
  have hinit : IsInitial (mkInitialTree vals 5) := by
    refine ⟨?_, ?_, rfl, rfl⟩
    · show Finset.range vals.length
        = Finset.range (vals.map fun v =>
            ({ lo := 1, curr := v, prev := none } : IntValueTree)).length
      rw [List.length_map]
    · show 5 ≤ (vals.map fun v =>
        ({ lo := 1, curr := v, prev := none } : IntValueTree)).length
      rw [List.length_map]
      exact hlen5
  refine ⟨inv_of_initial _ hinit, rfl, ?_, ?_, ?_, ?_, ?_, ?_, ?_⟩
  · intro i hi
    simp only [mkInitialTree, Finset.mem_range] at hi
    simpa [mkInitialTree] using hi
  · intro e he
    obtain ⟨v, hv, rfl⟩ := List.mem_map.mp he
    exact ⟨le_refl 1, hvals v hv⟩
  · intro d _ e he
    obtain ⟨v, hv, rfl⟩ := List.mem_map.mp he
    rfl
  · intro d hd i hi hid hilen
    have hd0 : Shrink.DeleteElement 0 = .DeleteElement d := hd
    injection hd0 with hd0
    omega
  · intro s hs
    exact Shrink.noConfusion hs
  · intro s hs
    exact Shrink.noConfusion hs
  · intro s hs
    exact Shrink.noConfusion hs

/-! ### Claim theorems -/

/-- C1: For every `VecValueTree`, `simplify` follows the two-phase
algorithm.  Phase 1, cursor `DeleteElement i`: if `i` is past the sequence
end or the included-index count equals the minimum-size floor, the cursor
switches to `ShrinkElement 0` and control falls through to phase 2 without
reporting a change (`simplify` behaves exactly as if started there);
otherwise index `i` is excluded, the action is recorded, the cursor
advances to `DeleteElement (i+1)` and `simplify` returns `true`.  Phase 2,
cursor `ShrinkElement i`: past the end, `simplify` returns `false`; on an
excluded index, the cursor advances to `i+1` and the loop continues; on an
included index, element `i` is asked to simplify — on success the action is
recorded and `simplify` returns `true`, on failure the cursor advances to
`i+1` and the loop continues. -/
theorem C1_simplify_two_phase (impl : ValueTree σ α) (t : VecValueTree σ)
    (i : Nat) :
    (t.shrink = .DeleteElement i →
      ((t.elements.length ≤ i ∨ t.included_elements.card = t.min_size →
        t.simplify impl =
          VecValueTree.simplify impl { t with shrink := .ShrinkElement 0 }) ∧
       (i < t.elements.length → t.included_elements.card ≠ t.min_size →
        t.simplify impl =
          some (true,
            { t with included_elements := t.included_elements.erase i,
                     prev_shrink := some (.DeleteElement i),
                     shrink := .DeleteElement (i + 1) })))) ∧
    (t.shrink = .ShrinkElement i →
      ((t.elements.length ≤ i → t.simplify impl = some (false, t)) ∧
       (∀ h : i < t.elements.length,
         (i ∉ t.included_elements →
           t.simplify impl =
             VecValueTree.simplify impl
               { t with shrink := .ShrinkElement (i + 1) }) ∧
         (i ∈ t.included_elements →
           (∀ e, impl.simplify (t.elements.get ⟨i, h⟩) = (true, e) →
             t.simplify impl =
               some (true,
                 { t with elements := t.elements.set i e,
                          prev_shrink := some (.ShrinkElement i) })) ∧
           (∀ e, impl.simplify (t.elements.get ⟨i, h⟩) = (false, e) →
             t.simplify impl =
               VecValueTree.simplify impl
                 { t with elements := t.elements.set i e,
                          shrink := .ShrinkElement (i + 1) }))))) := by
  constructor
  · intro hs
    exact ⟨fun hg => simplify_delete_guard impl t i hs hg,
      fun hlen hcard => simplify_delete impl t i hs hlen hcard⟩
  · intro hs
    refine ⟨fun hlen => simplify_shrink_out impl t i hs hlen, fun h => ?_⟩
    refine ⟨fun hmem => simplify_shrink_skip impl t i hs h hmem, fun hmem => ?_⟩
    exact ⟨fun e he => simplify_shrink_succ impl t i e hs h hmem he,
      fun e he => simplify_shrink_fail impl t i e hs h hmem he⟩

/-- Witness for C1: on the fresh two-element tree with floor 0 the deletion
branch fires (cursor `DeleteElement 0`, index 0 in range, count above the
floor), excluding index 0, recording the action, advancing the cursor and
returning `true`. -/
theorem C1_simplify_two_phase_witness :
    (mkInitialTree [2, 2] 0).simplify IntImpl =
      some (true,
        { mkInitialTree [2, 2] 0 with
            included_elements :=
              (mkInitialTree [2, 2] 0).included_elements.erase 0,
            prev_shrink := some (.DeleteElement 0),
            shrink := .DeleteElement 1 }) :=
  ((C1_simplify_two_phase IntImpl (mkInitialTree [2, 2] 0) 0).1 rfl).2
    (by decide) (by decide)

/-- C7: for every tuple value tree (the `tuple!` macro generates the same
impl at each arity 1 through 12) and every flatten value tree, `simplify`
and `complicate` always return `false` and leave the state (hence the
current value) unchanged; the tuple tree's current value is the
element-wise tuple of its component trees' current values (shown at the
representative arities 1 and 2), and the flatten tree's current value
delegates to its committed inner tree. -/
theorem C7_tuple_flatten_no_shrink {α β γ : Type} (T σa σb μ ι ρ : Type)
    (ia : ValueTree σa α) (ib : ValueTree σb β) (inner : ValueTree ι γ) :
    (∀ t : TupleValueTree T, TupleValueTree.simplify t = (false, t)) ∧
    (∀ t : TupleValueTree T, TupleValueTree.complicate t = (false, t)) ∧
    (∀ t : TupleValueTree σa, TupleValueTree.current1 ia t = ia.current t.tree) ∧
    (∀ t : TupleValueTree (σa × σb),
      TupleValueTree.current2 ia ib t =
        (ia.current t.tree.1, ib.current t.tree.2)) ∧
    (∀ t : FlattenValueTree μ ι ρ, FlattenValueTree.simplify t = (false, t)) ∧
    (∀ t : FlattenValueTree μ ι ρ, FlattenValueTree.complicate t = (false, t)) ∧
    (∀ t : FlattenValueTree μ ι ρ,
      FlattenValueTree.current inner t = inner.current t.curr) :=
  ⟨fun _ => rfl, fun _ => rfl, fun _ => rfl, fun _ => rfl, fun _ => rfl,
    fun _ => rfl, fun _ => rfl⟩

/-- C8: a size bound is constructed as follows: from an exact value `n`,
`[n, n]`; from a half-open range `a..b` (nonempty, so that `b - 1` does not
underflow), `[a, b-1]`; from an open-below range `..b`, `[0, b-1]`; an
inclusive range `a..=b` passes through; and the default is `[0, 99]`. -/
theorem C8_size_bound_construction (n a b : Nat) :
    SizeRange.fromUsize n = { low := n, high := n } ∧
    (1 ≤ b → SizeRange.fromRange a b = { low := a, high := b - 1 }) ∧
    (1 ≤ b → SizeRange.fromRangeTo b = { low := 0, high := b - 1 }) ∧
    SizeRange.fromRangeInclusive a b = { low := a, high := b } ∧
    SizeRange.default = { low := 0, high := 99 } :=
  ⟨rfl, fun _ => rfl, fun _ => rfl, rfl, rfl⟩

/-- Witness for C8: the two conversions guarded by nonemptiness of the
half-open range, at `1..4` and `..4`. -/
theorem C8_size_bound_construction_witness :
    SizeRange.fromRange 1 4 = { low := 1, high := 3 } ∧
    SizeRange.fromRangeTo 4 = { low := 0, high := 3 } :=
  ⟨(C8_size_bound_construction 0 1 4).2.1 (by decide),
    (C8_size_bound_construction 0 1 4).2.2.1 (by decide)⟩

/-- C9: on a tree on which no successful `simplify` has occurred —
a `VecValueTree` with no recorded action (as fresh trees are), any tuple
value tree, any flatten value tree — `complicate` returns `false` and
leaves the state unchanged. -/
theorem C9_fresh_complicate_noop (impl : ValueTree σ α) (T μ ι ρ : Type) :
    (∀ t : VecValueTree σ, t.prev_shrink = none →
      t.complicate impl = some (false, t)) ∧
    (∀ t : TupleValueTree T, TupleValueTree.complicate t = (false, t)) ∧
    (∀ t : FlattenValueTree μ ι ρ, FlattenValueTree.complicate t = (false, t)) :=
  ⟨fun t hp => complicate_of_none impl t hp, fun _ => rfl, fun _ => rfl⟩

/-- Witness for C9: the fresh one-element collection tree. -/
theorem C9_fresh_complicate_noop_witness :
    (mkInitialTree [2] 0).complicate IntImpl =
      some (false, mkInitialTree [2] 0) :=
  (C9_fresh_complicate_noop IntImpl Unit Unit Unit Unit).1
    (mkInitialTree [2] 0) rfl

/-- C10: the `Unexpected shrink state` panic at the end of
`VecValueTree::simplify` (modelled by the `none` result) is unreachable:
for every tree state whatsoever — in particular every state reachable from
`new_tree` by any sequence of `simplify` and `complicate` calls —
`simplify` exits through one of its `return` statements. -/
theorem C10_simplify_never_panics (impl : ValueTree σ α) (t : VecValueTree σ) :
    (t.simplify impl).isSome :=
  simplify_isSome impl t

/-- C3: assuming the runner's uniform sampler returns a value in the
requested inclusive range, `new_tree` draws a length within `[low, high]`,
generates exactly that many element trees in order from the element
strategy (threading the runner state), and the resulting tree has every
index `0..length` included, `min_size` equal to `low`, cursor
`DeleteElement 0` and no recorded prior action; consequently the initial
current value has exactly that length, which lies within `[low, high]`. -/
theorem C3_new_tree_shape (impl : ValueTree σ α)
    (sample : ρ → Nat → Nat → Nat × ρ) (elemNew : ρ → Option (σ × ρ))
    (size : SizeRange) (r : ρ)
    (hlo : size.low ≤ (sample r size.low size.high).1)
    (hhi : (sample r size.low size.high).1 ≤ size.high)
    (t : VecValueTree σ) (r2 : ρ)
    (hrun : vecNewTree sample elemNew size r = some (t, r2)) :
    t.elements.length = (sample r size.low size.high).1 ∧
    genElements elemNew (sample r size.low size.high).1
      (sample r size.low size.high).2 = some (t.elements, r2) ∧
    t.included_elements = Finset.range t.elements.length ∧
    t.min_size = size.low ∧
    t.shrink = .DeleteElement 0 ∧
    t.prev_shrink = none ∧
    (t.current impl).length = t.elements.length ∧
    size.low ≤ (t.current impl).length ∧
    (t.current impl).length ≤ size.high := by
  unfold vecNewTree at hrun
  simp only at hrun
  rcases hg : genElements elemNew (sample r size.low size.high).1
      (sample r size.low size.high).2 with _ | ⟨es, r3⟩
  · rw [hg] at hrun
    cases hrun
  · rw [hg] at hrun
    have h4 := Option.some.inj hrun
    rw [Prod.ext_iff] at h4
    obtain ⟨h5, h6⟩ := h4
    simp only at h5 h6
    rw [h6] at hg
    have hlen : es.length = (sample r size.low size.high).1 :=
      genElements_length elemNew _ _ es r2 hg
    have hfields : t.elements = es ∧
        t.included_elements = Finset.range (sample r size.low size.high).1 ∧
        t.min_size = size.low ∧ t.shrink = .DeleteElement 0 ∧
        t.prev_shrink = none := by
      rw [← h5]
      exact ⟨rfl, rfl, rfl, rfl, rfl⟩
    obtain ⟨hf1, hf2, hf3, hf4, hf5⟩ := hfields
    have hlen2 : t.elements.length = (sample r size.low size.high).1 := by
      rw [hf1, hlen]
    have hinc : t.included_elements = Finset.range t.elements.length := by
      rw [hf2, hlen2]
    have hcur : (t.current impl).length = t.elements.length :=
      current_length_initial impl t hinc
    refine ⟨hlen2, by rw [hf1, h6], hinc, hf3, hf4, hf5, hcur, ?_, ?_⟩
    · rw [hcur, hlen2]
      exact hlo
    · rw [hcur, hlen2]
      exact hhi

/-- Witness for C3: a sampler that returns the lower end (1, inside the
requested range `[1, 3]`) and an element generator producing integer trees
at value 2 while incrementing the runner state; the generated tree's floor
is the bound's lower end. -/
theorem C3_new_tree_shape_witness :
    ({ elements := [{ lo := 1, curr := 2, prev := none }],
       included_elements := Finset.range 1, min_size := 1,
       shrink := .DeleteElement 0, prev_shrink := none } :
        VecValueTree IntValueTree).min_size = (⟨1, 3⟩ : SizeRange).low :=
  (C3_new_tree_shape IntImpl (fun r lo _ => (lo, r))
    (fun r => some ({ lo := 1, curr := 2, prev := none }, r + 1))
    ⟨1, 3⟩ 0 (by decide) (by decide)
    { elements := [{ lo := 1, curr := 2, prev := none }],
      included_elements := Finset.range 1, min_size := 1,
      shrink := .DeleteElement 0, prev_shrink := none } 1 (by decide)).2.2.2.1

/-- Counterexample for C6: the empty half-open range `5..3` constructs the
size bound `[5, 2]`, whose lower end exceeds its upper end. -/
theorem C6_counterexample :
    SizeRange.fromRange 5 3 = { low := 5, high := 2 } ∧
    ¬ (SizeRange.fromRange 5 3).low ≤ (SizeRange.fromRange 5 3).high := by
  decide

/-- C6 (amended): for every size bound constructed from a nonempty
half-open range `a..b` (with `b` a `usize` value, so `b ≤ usize::MAX`),
`low ≤ high` holds, both ends are representable in `usize`, and converting
the bound back to a half-open range yields `(a, b)`, so converting forward
again is the identity. -/
theorem C6_nonempty_range_roundtrip (a b : Nat) (hab : a < b)
    (hb : b ≤ USIZE_MAX) :
    (SizeRange.fromRange a b).low ≤ (SizeRange.fromRange a b).high ∧
    (SizeRange.fromRange a b).low ≤ USIZE_MAX ∧
    (SizeRange.fromRange a b).high ≤ USIZE_MAX ∧
    (SizeRange.fromRange a b).toRange = (a, b) ∧
    SizeRange.fromRange (SizeRange.fromRange a b).toRange.1
        (SizeRange.fromRange a b).toRange.2 =
      SizeRange.fromRange a b := by
  unfold SizeRange.fromRange SizeRange.fromRangeInclusive SizeRange.toRange
  simp only
  have h1 : b - 1 + 1 = b := by omega
  refine ⟨by omega, by omega, by omega, by rw [h1], by rw [h1]⟩

/-- Witness for C6 (amended): the range `1..3`. -/
theorem C6_nonempty_range_roundtrip_witness :
    (SizeRange.fromRange 1 3).low ≤ (SizeRange.fromRange 1 3).high ∧
    (SizeRange.fromRange 1 3).low ≤ USIZE_MAX ∧
    (SizeRange.fromRange 1 3).high ≤ USIZE_MAX ∧
    (SizeRange.fromRange 1 3).toRange = (1, 3) ∧
    SizeRange.fromRange (SizeRange.fromRange 1 3).toRange.1
        (SizeRange.fromRange 1 3).toRange.2 =
      SizeRange.fromRange 1 3 :=
  C6_nonempty_range_roundtrip 1 3 (by decide)
    (by unfold USIZE_MAX; omega)

/-- C2: undo correctness.  For any element implementation honouring the
`ValueTree` contract (a failed element `simplify` leaves the element's
value unchanged; a successful one is undone by the element's
`complicate`), on every reachable `VecValueTree` a successful `simplify`
immediately followed by `complicate` returns `true` and restores a current
value equal to the one read before the `simplify`.  Moreover, whenever the
last recorded action is a deletion at index `i`, `complicate` re-includes
index `i`, clears the recorded action and returns `true`; and whenever it
is an element shrink at index `i`, `complicate` delegates to element `i`'s
`complicate`, keeping the recorded action on success and clearing it
(returning `false`) on failure. -/
theorem C2_undo_correctness (impl : ValueTree σ α)
    (Hfail : ∀ e e2 : σ, impl.simplify e = (false, e2) →
      impl.current e2 = impl.current e)
    (Hundo : ∀ e e2 : σ, impl.simplify e = (true, e2) →
      ∃ e3, impl.complicate e2 = (true, e3) ∧
        impl.current e3 = impl.current e) :
    (∀ t t' : VecValueTree σ, Reachable impl t →
      t.simplify impl = some (true, t') →
      ∃ t2, t'.complicate impl = some (true, t2) ∧
        t2.current impl = t.current impl) ∧
    (∀ (t : VecValueTree σ) (i : Nat),
      t.prev_shrink = some (.DeleteElement i) →
      t.complicate impl =
        some (true,
          { t with included_elements := insert i t.included_elements,
                   prev_shrink := none })) ∧
    (∀ (t : VecValueTree σ) (i : Nat) (e : σ),
      t.prev_shrink = some (.ShrinkElement i) → t.elements.get? i = some e →
      (∀ e2, impl.complicate e = (true, e2) →
        t.complicate impl =
          some (true, { t with elements := t.elements.set i e2 })) ∧
      (∀ e2, impl.complicate e = (false, e2) →
        t.complicate impl =
          some (false,
            { t with elements := t.elements.set i e2,
                     prev_shrink := none }))) := by
  refine ⟨?_, ?_, ?_⟩
  · intro t t' hreach hrun
    exact simplify_complicate_undo impl Hfail Hundo t t'
      (reachable_inv impl t hreach) hrun
  · intro t i hp
    exact complicate_of_delete impl t i hp
  · intro t i e hp hq
    exact ⟨fun e2 hc => complicate_shrink_true impl t i e e2 hp hq hc,
      fun e2 hc => complicate_shrink_false impl t i e e2 hp hq hc⟩

/-- Witness for C2: the modelled integer element trees satisfy the element
contract; the fresh one-element tree with floor 0 simplifies by deleting
index 0, and the following `complicate` restores the original value. -/
theorem C2_undo_correctness_witness :
    ∃ t2, VecValueTree.complicate IntImpl
        { elements := [{ lo := 1, curr := 2, prev := none }],
          included_elements := ∅, min_size := 0,
          shrink := .DeleteElement 1,
          prev_shrink := some (.DeleteElement 0) } = some (true, t2) ∧
      t2.current IntImpl = (mkInitialTree [2] 0).current IntImpl :=
  (C2_undo_correctness IntImpl intImpl_fail intImpl_undo).1
    (mkInitialTree [2] 0)
    { elements := [{ lo := 1, curr := 2, prev := none }],
      included_elements := ∅, min_size := 0,
      shrink := .DeleteElement 1,
      prev_shrink := some (.DeleteElement 0) }
    (Reachable.init _ (by decide)) (by decide)

/-- C4: repeated `simplify` calls never increase the length of the current
value; once the included-index count equals the minimum-size floor, a
`simplify` step performs no deletion (the inclusion set is untouched, only
element-level shrinking proceeds); and from a freshly generated tree with
`n` elements and floor `f`, at most `n - f` consecutive successful
`simplify` calls can come purely from the deletion phase. -/
theorem C4_shrink_monotonic_terminating (impl : ValueTree σ α) :
    (∀ (n : Nat) (t t' : VecValueTree σ), simplifyN impl n t = some t' →
      (t'.current impl).length ≤ (t.current impl).length) ∧
    (∀ (t t' : VecValueTree σ) (b : Bool),
      t.included_elements.card = t.min_size →
      t.simplify impl = some (b, t') →
      t'.included_elements = t.included_elements) ∧
    (∀ (t t2 : VecValueTree σ) (k : Nat), IsInitial t →
      DeleteChain impl k t t2 → k ≤ t.elements.length - t.min_size) := by
  refine ⟨?_, ?_, ?_⟩
  · intro n t t' h
    exact simplifyN_current_length impl n t t' h
  · intro t t' b hfloor hrun
    exact simplify_at_floor impl t t' b hfloor hrun
  · intro t t2 k hinit hchain
    have hinv := inv_of_initial t hinit
    obtain ⟨h1, h2, h3⟩ := deleteChain_card impl k t t2 hinv hchain
    have hcard : t.included_elements.card = t.elements.length := by
      rw [hinit.1, Finset.card_range]
    have h4 := h3.1
    rw [h2] at h4
    omega

/-- Witness for C4: one `simplify` step on a floor-saturated two-element
tree only shrinks an element (length and inclusion set preserved), and the
fresh two-element tree with floor 0 admits a two-step deletion chain,
within the bound `2 - 0`. -/
theorem C4_shrink_monotonic_terminating_witness :
    ((({ elements := [{ lo := 1, curr := 1, prev := some 2 },
                      { lo := 1, curr := 2, prev := none }],
         included_elements := Finset.range 2, min_size := 2,
         shrink := .ShrinkElement 0,
         prev_shrink := some (.ShrinkElement 0) } :
          VecValueTree IntValueTree).current IntImpl).length ≤
      ((mkInitialTree [2, 2] 2).current IntImpl).length) ∧
    (({ elements := [{ lo := 1, curr := 1, prev := some 2 },
                     { lo := 1, curr := 2, prev := none }],
        included_elements := Finset.range 2, min_size := 2,
        shrink := .ShrinkElement 0,
        prev_shrink := some (.ShrinkElement 0) } :
         VecValueTree IntValueTree).included_elements =
      (mkInitialTree [2, 2] 2).included_elements) ∧
    2 ≤ (mkInitialTree [2, 2] 0).elements.length -
      (mkInitialTree [2, 2] 0).min_size := by
  refine ⟨?_, ?_, ?_⟩
  · exact (C4_shrink_monotonic_terminating IntImpl).1 1
      (mkInitialTree [2, 2] 2) _ (by decide)
  · exact (C4_shrink_monotonic_terminating IntImpl).2.1
      (mkInitialTree [2, 2] 2) _ true (by decide) (by decide)
  · exact (C4_shrink_monotonic_terminating IntImpl).2.2
      (mkInitialTree [2, 2] 0)
      { elements := [{ lo := 1, curr := 2, prev := none },
                     { lo := 1, curr := 2, prev := none }],
        included_elements := ∅, min_size := 0,
        shrink := .DeleteElement 2,
        prev_shrink := some (.DeleteElement 1) } 2 (by decide)
      ⟨{ elements := [{ lo := 1, curr := 2, prev := none },
                      { lo := 1, curr := 2, prev := none }],
         included_elements := (Finset.range 2).erase 0, min_size := 0,
         shrink := .DeleteElement 1,
         prev_shrink := some (.DeleteElement 0) }, 0, by decide, rfl,
       { elements := [{ lo := 1, curr := 2, prev := none },
                      { lo := 1, curr := 2, prev := none }],
         included_elements := ∅, min_size := 0,
         shrink := .DeleteElement 2,
         prev_shrink := some (.DeleteElement 1) }, 1, by decide, rfl, rfl⟩

/-- Counterexample for C5: the claim's description of the minimal
counterexample (exactly 5 elements, each with minimal value 1, summing to
the boundary 9) is unsatisfiable — five ones sum to 5 — and concrete runs
of the modelled shrink loop contradict it on both counts: the failing case
`[2,2,2,2,2]` converges to `[1,2,2,2,2]` (5 elements, sum 9, not all 1),
and the failing case of nine ones converges to itself (9 elements, not
5). -/
theorem C5_counterexample :
    ((shrinkLoop IntImpl sumFails 200 (mkInitialTree [2, 2, 2, 2, 2] 5)).map
        (fun t => t.current IntImpl) = some [1, 2, 2, 2, 2] ∧
      ¬ ∀ x ∈ [1, 2, 2, 2, 2], x = 1) ∧
    ((shrinkLoop IntImpl sumFails 200
        (mkInitialTree [1, 1, 1, 1, 1, 1, 1, 1, 1] 5)).map
        (fun t => t.current IntImpl) = some [1, 1, 1, 1, 1, 1, 1, 1, 1] ∧
      ¬ ([1, 1, 1, 1, 1, 1, 1, 1, 1] : List Nat).length = 5) := by
  decide

/-- C5 (amended): for a bounded collection of integers drawn from
`[1, 20)` with length bound `[5, 20)` and a body rejecting every sequence
summing to at least 9, shrinking any failing case converges to a minimal
counterexample with between 5 (the floor) and 9 elements whose sum equals
exactly the boundary value 9 used by the rejection predicate: every
finished run of the modelled shrink loop reports such a value, and some
fuel makes the loop finish — the property the repository's own `test_vec`
asserts of the minimal value. -/
theorem C5_minimal_counterexample (vals : List Nat)
    (hlen5 : 5 ≤ vals.length) (hlen20 : vals.length < 20)
    (hvals : ∀ v ∈ vals, 1 ≤ v ∧ v < 20)
    (hfailing : sumFails ((mkInitialTree vals 5).current IntImpl) = true) :
    (∀ fuel tf,
      shrinkLoop IntImpl sumFails fuel (mkInitialTree vals 5) = some tf →
      5 ≤ (tf.current IntImpl).length ∧ (tf.current IntImpl).length ≤ 9 ∧
        (tf.current IntImpl).sum = 9) ∧
    ∃ fuel tf,
      shrinkLoop IntImpl sumFails fuel (mkInitialTree vals 5) = some tf ∧
      5 ≤ (tf.current IntImpl).length ∧ (tf.current IntImpl).length ≤ 9 ∧
        (tf.current IntImpl).sum = 9 := by
  have hSI := scenario_initial vals hlen5 (fun v hv => (hvals v hv).1)
  have hfail : 9 ≤ curSum (mkInitialTree vals 5) :=
    (fails_true_iff _).mp hfailing
  constructor
  · intro fuel tf hloop
    exact scenario_run fuel _ tf hSI hfail hloop
  · obtain ⟨fuel, tf, hloop⟩ :=
      scenario_terminates (measureM (mkInitialTree vals 5)) _ (le_refl _)
        hSI hfail
    exact ⟨fuel, tf, hloop, scenario_run fuel _ tf hSI hfail hloop⟩

/-- Witness for the C5 theorem at the concrete failing case
`[2, 2, 2, 2, 2]`: the hypotheses hold there and the loop's reported
minimum obeys the amended bounds. -/
theorem C5_minimal_counterexample_witness :
    ∃ fuel tf,
      shrinkLoop IntImpl sumFails fuel (mkInitialTree [2, 2, 2, 2, 2] 5)
        = some tf ∧
      5 ≤ (tf.current IntImpl).length ∧ (tf.current IntImpl).length ≤ 9 ∧
        (tf.current IntImpl).sum = 9 :=
  (C5_minimal_counterexample [2, 2, 2, 2, 2] (by decide) (by decide)
    (by decide) (by decide)).2

end Proptest
